import Mathlib

/-!
Verification of the graph-construction and topological-scheduling core of
`autokeras/auto/auto_model.py` (`GraphAutoModel`), shallowly embedded in Lean.

Nodes are natural numbers below `GraphE.numNodes`.  A `HyperBlockE` is a block
(Python `HyperBlock`) with its ordered input and output node lists and its name.
Blocks are identified by their index in `GraphE.blocks`, which models Python
object identity together with the creation/application order (a node records
the blocks consuming it in the order the blocks were applied, which is index
order here).

The Python code mutates `self._node_to_id` (an insertion-ordered dict),
`self._nodes`, `self._hypermodels` and per-object attributes; we model the
dict as the insertion-ordered list `order : List Nat` (the id of a node is its
index in the list), sets as lists used only through membership, and errors as
`Except String` carrying the exact `ValueError` message strings.  Recursion in
`_search_network` and the BFS loop are given explicit fuel; the fuel values
chosen in `buildNetwork` are proved sufficient for well-formed graphs, and a
distinct artificial message "fuel exhausted" marks the impossible case.
-/

/-- A block of the architecture graph: `HyperBlock` with its `inputs`,
`outputs` and `name` attributes (`hyper_block.py`, `HyperBlock.__call__`). -/
structure HyperBlockE where
  inputs : List Nat
  outputs : List Nat
  name : String
deriving DecidableEq, Repr

/-- The user-authored graph as seen by `GraphAutoModel.__init__`: the node
universe, the blocks in application order, the designated input and output
nodes (`self.inputs` / `self.outputs`), and each node's `shape` attribute
(an opaque descriptor, modelled as a natural number). -/
structure GraphE where
  numNodes : Nat
  blocks : List HyperBlockE
  inputs : List Nat
  outputs : List Nat
  shapes : Nat → Nat

/-- Default block used for out-of-range index lookups (never reached on
well-formed graphs). -/
def defaultBlock : HyperBlockE := ⟨[], [], ""⟩

/-- `node.out_hypermodels`: the blocks (by index) consuming `n` as an input,
in application order; a block appears once per occurrence of `n` in its input
list, matching `HyperBlock.__call__`, which calls `add_out_hypermodel` once
per input-list entry. -/
def outHypermodels (g : GraphE) (n : Nat) : List Nat :=
  (List.range g.blocks.length).flatMap
    (fun b => List.replicate ((g.blocks.getD b defaultBlock).inputs.count n) b)

/-- `node.in_hypermodels`: the blocks (by index) producing `n` as an output,
in application order. -/
def inHypermodels (g : GraphE) (n : Nat) : List Nat :=
  (List.range g.blocks.length).flatMap
    (fun b => List.replicate ((g.blocks.getD b defaultBlock).outputs.count n) b)

/-- The edge relation of the graph: `u` feeds `v` through some block. -/
def hasEdge (g : GraphE) (u v : Nat) : Prop :=
  ∃ b ∈ outHypermodels g u, v ∈ (g.blocks.getD b defaultBlock).outputs

instance (g : GraphE) (u v : Nat) : Decidable (hasEdge g u v) := by
  unfold hasEdge; infer_instance

/-- The list of all direct successors of a node (with multiplicity): the
outputs of every block consuming it. -/
def edgeTargets (g : GraphE) (n : Nat) : List Nat :=
  (outHypermodels g n).flatMap (fun b => (g.blocks.getD b defaultBlock).outputs)

/-- `v` is reachable from `u` along zero or more block edges. -/
def reaches (g : GraphE) (u v : Nat) : Prop :=
  Relation.ReflTransGen (hasEdge g) u v

/-- `u` reaches some designated output node. -/
def reachesOutput (g : GraphE) (u : Nat) : Prop :=
  ∃ o ∈ g.outputs, reaches g u o

/-- `u` is reachable from some designated input node. -/
def reachedFromInput (g : GraphE) (u : Nat) : Prop :=
  ∃ i ∈ g.inputs, reaches g i u

/-- Well-formedness of a user-authored graph: all mentioned nodes are in
range, each block's output nodes are distinct fresh nodes, no two blocks
share an output node (`HyperBlock.__call__` creates fresh `HyperNode`s for the
outputs, so these hold for every graph built through the API), and a
designated input node has zero in-blocks (the data-model invariant of the
spec for designated graph inputs). -/
def WFGraph (g : GraphE) : Prop :=
  (∀ b ∈ g.blocks, ∀ n ∈ b.inputs, n < g.numNodes) ∧
  (∀ b ∈ g.blocks, ∀ n ∈ b.outputs, n < g.numNodes) ∧
  (∀ n ∈ g.inputs, n < g.numNodes) ∧
  (∀ n ∈ g.outputs, n < g.numNodes) ∧
  (∀ b ∈ g.blocks, b.outputs.Nodup) ∧
  (∀ i ∈ List.range g.blocks.length, ∀ j ∈ List.range g.blocks.length, i ≠ j →
    ∀ n, n ∈ (g.blocks.getD i defaultBlock).outputs →
      n ∉ (g.blocks.getD j defaultBlock).outputs) ∧
  (∀ i ∈ g.inputs, ∀ b ∈ g.blocks, i ∉ b.outputs)

instance (g : GraphE) : Decidable (WFGraph g) := by
  unfold WFGraph; infer_instance

/-- State threaded through `_search_network`: the `visited_nodes` set and the
insertion-ordered `self._node_to_id` dict (a node's id is its index). -/
structure SState where
  visited : List Nat
  order : List Nat
deriving DecidableEq, Repr

/-- `set.add`: insert without duplicating (membership-only set model). -/
def insertVisited (n : Nat) (v : List Nat) : List Nat :=
  if n ∈ v then v else n :: v

/-- `GraphAutoModel._add_node` (lines 152-154): assign the next id to a node
not yet in `_node_to_id`; appending keeps id = index. -/
def addNode (n : Nat) (order : List Nat) : List Nat :=
  if n ∈ order then order else order ++ [n]

/-- The inner loop of `_search_network` over `hypermodel.outputs` (lines
124-131): raise the cycle error if the output node is on the recursion
stack, recurse (via `rec`, the depth-limited `_search_network`) if it is
unvisited, then propagate interestingness from `_node_to_id`. -/
def searchOuts (rec : Nat → List Nat → SState → Except String SState) :
    List Nat → List Nat → SState → Bool → Except String (SState × Bool)
  | [], _, st, r => .ok (st, r)
  | out :: outs, inStack1, st, r =>
    if out ∈ inStack1 then .error "The network has a cycle."
    else
      match (if out ∈ st.visited then Except.ok st else rec out inStack1 st) with
      | .error e => .error e
      | .ok st2 => searchOuts rec outs inStack1 st2 (r || decide (out ∈ st2.order))

/-- The outer loop of `_search_network` over `input_node.out_hypermodels`
(line 123). -/
def searchBlocks (g : GraphE) (rec : Nat → List Nat → SState → Except String SState) :
    List Nat → List Nat → SState → Bool → Except String (SState × Bool)
  | [], _, st, r => .ok (st, r)
  | b :: bs, inStack1, st, r =>
    match searchOuts rec (g.blocks.getD b defaultBlock).outputs inStack1 st r with
    | .error e => .error e
    | .ok (st2, r2) => searchBlocks g rec bs inStack1 st2 r2

/-- `GraphAutoModel._search_network` (lines 114-136): mark the node visited,
push it on the recursion stack, scan every consuming block's outputs (cycle
check against the stack, recursion into unvisited outputs, interestingness
check against `_node_to_id`), and add the node to `_node_to_id` if it is a
designated output or reaches an interesting node.  The recursion stack is the
explicit parameter `inStack` (the Python code removes the node again before
returning, so the caller's stack is unchanged).  `fuel` bounds the recursion
depth and is an artifact of the embedding. -/
def searchNetwork (g : GraphE) : Nat → Nat → List Nat → SState → Except String SState
  | 0 => fun _ _ _ => .error "fuel exhausted"
  | fuel + 1 => fun node inStack st =>
    let st1 : SState := ⟨insertVisited node st.visited, st.order⟩
    let inStack1 := node :: inStack
    let r0 := decide (node ∈ g.outputs)
    match searchBlocks g (searchNetwork g fuel) (outHypermodels g node) inStack1 st1 r0 with
    | .error e => .error e
    | .ok (st2, reached) =>
      .ok ⟨st2.visited, if reached then addNode node st2.order else st2.order⟩

/-- Recursion-depth fuel used for `_search_network`; proved sufficient for
well-formed graphs. -/
def searchFuel (g : GraphE) : Nat := g.numNodes + 1

/-- Specification gadget: `FinSeq g base L` says `L` is a valid DFS finish
order over fresh nodes given that the nodes satisfying `base` finished
earlier: every edge out of an element of `L` lands in `base` or in a
strictly earlier element of `L`. -/
def FinSeq (g : GraphE) : (Nat → Prop) → List Nat → Prop
  | _, [] => True
  | base, v :: rest =>
    (∀ w, hasEdge g v w → base w) ∧ FinSeq g (fun x => base x ∨ x = v) rest

/-- Specification gadget: postcondition of one segment of the
`_search_network` traversal, taking state `st` to `st2` with recursion stack
`inStack1`.  `L` is the finish order of the nodes newly entered in this
segment, every one of them fresh, in range, and reachable from some source
in `src`; `_node_to_id` grows by a suffix `deltaO` of nodes entered in this
segment; `need` lists nodes guaranteed to have been entered. -/
def SegPost (g : GraphE) (src : Nat → Prop) (need : List Nat)
    (inStack1 : List Nat) (st st2 : SState) : Prop :=
  ∃ L deltaO : List Nat,
    (∀ x, x ∈ st2.visited ↔ x ∈ L ∨ x ∈ st.visited) ∧
    L.Nodup ∧
    (∀ x ∈ L, x ∉ st.visited) ∧
    (∀ x ∈ L, x < g.numNodes) ∧
    (∀ x ∈ L, ∃ s, src s ∧ reaches g s x) ∧
    st2.order = st.order ++ deltaO ∧
    (∀ x ∈ deltaO, x ∈ L) ∧
    FinSeq g (fun x => x ∈ st.visited ∧ x ∉ inStack1) L ∧
    (st.visited.Nodup → st2.visited.Nodup) ∧
    (∀ x ∈ need, x ∈ L)

/-- Specification gadget: the contract of the depth-limited
`_search_network` used for the fuel induction: every successful call from an
unvisited in-range node satisfies `SegPost` for its own node. -/
def NetSpec (g : GraphE) (f : Nat → List Nat → SState → Except String SState) : Prop :=
  ∀ node inStack st st2, node < g.numNodes → node ∉ st.visited →
    f node inStack st = .ok st2 →
    SegPost g (fun s => s = node) [node] (node :: inStack) st st2

/-- Specification gadget: every error a depth-limited `_search_network` can
raise is the fuel artifact or the cycle `ValueError`. -/
def ErrSpec (_g : GraphE) (f : Nat → List Nat → SState → Except String SState) : Prop :=
  ∀ node inStack st e, f node inStack st = .error e →
    e = "fuel exhausted" ∨ e = "The network has a cycle."

/-- Invariant of the `visited_nodes` set: no duplicates, all nodes in
range. -/
def FuelInv (g : GraphE) (st : SState) : Prop :=
  st.visited.Nodup ∧ (∀ x ∈ st.visited, x < g.numNodes)

/-- Specification gadget: the fuel bound is sufficient — a call on a fresh
in-range node with enough fuel for the remaining unvisited nodes never hits
the artificial fuel error. -/
def FuelSpec (g : GraphE) (f : Nat → List Nat → SState → Except String SState)
    (fuel : Nat) : Prop :=
  ∀ node inStack st, node < g.numNodes → node ∉ st.visited → FuelInv g st →
    g.numNodes + 1 ≤ fuel + st.visited.length →
    f node inStack st ≠ .error "fuel exhausted"

/-- Specification gadget: soundness of the cycle error — when the recursion
stack is a genuine edge path from the root, a cycle error implies a real
directed cycle reachable from the root. -/
def SoundSpec (g : GraphE) (f : Nat → List Nat → SState → Except String SState) : Prop :=
  ∀ node inStack st root,
    List.Chain' (fun a b => hasEdge g b a) (node :: inStack) →
    (∀ x ∈ node :: inStack, reaches g root x) →
    f node inStack st = .error "The network has a cycle." →
    ∃ v, reaches g root v ∧ Relation.TransGen (hasEdge g) v v

/-- Specification gadget: `_search_network` only adds nodes that reach a
designated output to `_node_to_id`. -/
def OrdSpec (g : GraphE) (f : Nat → List Nat → SState → Except String SState) : Prop :=
  ∀ node inStack st st2, f node inStack st = .ok st2 →
    (∀ x ∈ st.order, reachesOutput g x) → ∀ x ∈ st2.order, reachesOutput g x

/-- Specification gadget: completeness of interestingness — on success, every
visited node off the recursion stack that reaches a designated output has
been added to `_node_to_id`. -/
def CompSpec (g : GraphE) (f : Nat → List Nat → SState → Except String SState) : Prop :=
  ∀ node inStack st st2, node < g.numNodes → node ∉ st.visited →
    f node inStack st = .ok st2 →
    (∀ v, v ∈ st.visited → v ∉ node :: inStack → reachesOutput g v → v ∈ st.order) →
    ∀ v, v ∈ st2.visited → v ∉ inStack → reachesOutput g v → v ∈ st2.order


/-- Lines 77-79 of `_build_network`: run `_search_network` from every
designated input node.  Each root call receives a fresh empty recursion stack
and a fresh empty `visited_nodes` set (`set(), set()`), while `_node_to_id`
persists across roots. -/
def searchAll (g : GraphE) : List Nat → List Nat → Except String (List Nat)
  | [], order => .ok order
  | i :: is, order =>
    match searchNetwork g (searchFuel g) i [] ⟨[], order⟩ with
    | .error e => .error e
    | .ok st => searchAll g is st.order

/-- Lines 83-85 of `_build_network`: every designated input and output node
must have entered `_node_to_id`, else `ValueError`. -/
def connectivityCheck (g : GraphE) (order : List Nat) : Except String Unit :=
  if (g.inputs ++ g.outputs).all (fun n => decide (n ∈ order)) then .ok ()
  else .error "Inputs and outputs not connected."

/-- State of the BFS block-ordering loop (lines 90-109): the FIFO `queue`,
the `visited_nodes` set, the persisting `_node_to_id`, and the ordered
`self._hypermodels` list of registered block indices. -/
structure BState where
  queue : List Nat
  visitedB : List Nat
  order : List Nat
  hms : List Nat
deriving DecidableEq, Repr

/-- `GraphAutoModel._add_hypermodel` (lines 138-150): register the block if
new (append keeps registration order), assign ids to all its output nodes,
then require every input node to be in `_node_to_id`. -/
def addHypermodel (g : GraphE) (b : Nat) (st : BState) : Except String BState :=
  let blk := g.blocks.getD b defaultBlock
  let hms2 := if b ∈ st.hms then st.hms else st.hms ++ [b]
  let order2 := blk.outputs.foldl (fun o n => addNode n o) st.order
  if blk.inputs.all (fun n => decide (n ∈ order2)) then
    .ok ⟨st.queue, st.visitedB, order2, hms2⟩
  else
    .error ("A required input is missing for HyperModel " ++ blk.name ++ ".")

/-- Lines 104-109 of `_build_network`: enqueue each output node of the block
that is unvisited and in `_node_to_id`, marking it visited. -/
def enqueueOuts (outs : List Nat) (st : BState) : BState :=
  match outs with
  | [] => st
  | o :: os =>
    if o ∉ st.visitedB ∧ o ∈ st.order then
      enqueueOuts os ⟨st.queue ++ [o], o :: st.visitedB, st.order, st.hms⟩
    else
      enqueueOuts os st

/-- Lines 97-109 of `_build_network`: for each block consuming the popped
node, skip it when none of its outputs is in `_node_to_id`, otherwise
register it and enqueue its interesting outputs. -/
def processBlocks (g : GraphE) : List Nat → BState → Except String BState
  | [], st => .ok st
  | b :: bs, st =>
    let blk := g.blocks.getD b defaultBlock
    if blk.outputs.any (fun o => decide (o ∈ st.order)) then
      match addHypermodel g b st with
      | .error e => .error e
      | .ok st2 => processBlocks g bs (enqueueOuts blk.outputs st2)
    else
      processBlocks g bs st

/-- The BFS loop of `_build_network` (lines 95-109): pop nodes until the
queue drains.  `fuel` bounds the number of iterations and is an embedding
artifact proved sufficient for well-formed graphs. -/
def bfsLoop (g : GraphE) : Nat → BState → Except String (List Nat × List Nat)
  | 0, _ => .error "fuel exhausted"
  | fuel + 1, st =>
    match st.queue with
    | [] => .ok (st.order, st.hms)
    | n :: rest =>
      match processBlocks g (outHypermodels g n) ⟨rest, st.visitedB, st.order, st.hms⟩ with
      | .error e => .error e
      | .ok st2 => bfsLoop g fuel st2

/-- Iteration fuel for the BFS loop; proved sufficient for well-formed
graphs. -/
def bfsFuel (g : GraphE) : Nat := g.inputs.length + g.numNodes + 1
/-- Specification gadget: invariant of the BFS block-ordering loop relative
to the discovery snapshot `disc`: registered blocks are distinct, in range,
have all inputs in `_node_to_id`, one output in the discovery set, and all
outputs visited; `_node_to_id` contains `disc` plus outputs of registered
blocks only. -/
def BfsInv (g : GraphE) (disc : List Nat) (st : BState) : Prop :=
  st.hms.Nodup ∧
  (∀ b ∈ st.hms, b < g.blocks.length) ∧
  (∀ b ∈ st.hms, ∀ n ∈ (g.blocks.getD b defaultBlock).inputs, n ∈ st.order) ∧
  (∀ x ∈ st.order, x ∈ disc ∨
    ∃ b ∈ st.hms, x ∈ (g.blocks.getD b defaultBlock).outputs) ∧
  (∀ b ∈ st.hms, ∀ out ∈ (g.blocks.getD b defaultBlock).outputs, out ∈ st.visitedB) ∧
  (∀ b ∈ st.hms, ∃ m ∈ (g.blocks.getD b defaultBlock).outputs, m ∈ disc) ∧
  (∀ x ∈ disc, x ∈ st.order)

/-- Assignment `hypermodel.output_shape = output_node.shape`, modelled as an
overwriting association list keyed by block index. -/
def setShape (m : List (Nat × Nat)) (b s : Nat) : List (Nat × Nat) :=
  (b, s) :: m.filter (fun p => p.1 ≠ b)

/-- Read a block's declared `output_shape` after construction. -/
def lookupShape : List (Nat × Nat) → Nat → Option Nat
  | [], _ => none
  | p :: ps, b => if p.1 = b then some p.2 else lookupShape ps b

/-- `output_node.in_hypermodels[0]` as an optional value: the producing
block of a node, unique on well-formed graphs. -/
def producerOf (g : GraphE) (o : Nat) : Option Nat := (inHypermodels g o).head?

/-- Lines 110-112 of `_build_network`: for every designated output node take
`output_node.in_hypermodels[0]` (IndexError when there is no producer) and
record the node's shape as that block's declared output shape. -/
def finalizeShapes (g : GraphE) : List Nat → List (Nat × Nat) →
    Except String (List (Nat × Nat))
  | [], m => .ok m
  | o :: os, m =>
    match inHypermodels g o with
    | [] => .error "IndexError"
    | b :: _ => finalizeShapes g os (setShape m b (g.shapes o))

/-- Result of `_build_network`: `nodes` is the snapshot `self._nodes` taken
at line 80 (the discovery-order list, before the BFS can append further ids),
`nodeToId` the final `self._node_to_id` insertion order, `hms` the block
order `self._hypermodels`, and `shapeMap` the declared output shapes. -/
structure BuildOut where
  nodes : List Nat
  nodeToId : List Nat
  hms : List Nat
  shapeMap : List (Nat × Nat)
deriving DecidableEq, Repr

/-- `GraphAutoModel._build_network` (lines 74-112): discovery from every
designated input, the `self._nodes` snapshot, the connectivity check, the
BFS block ordering, and the output-shape finalization. -/
def buildNetwork (g : GraphE) : Except String BuildOut :=
  match searchAll g g.inputs [] with
  | .error e => .error e
  | .ok discOrder =>
    match connectivityCheck g discOrder with
    | .error e => .error e
    | .ok _ =>
      let visited0 := g.inputs.foldl (fun v n => insertVisited n v) []
      match bfsLoop g (bfsFuel g) ⟨g.inputs, visited0, discOrder, []⟩ with
      | .error e => .error e
      | .ok (orderF, hms) =>
        match finalizeShapes g g.outputs [] with
        | .error e => .error e
        | .ok m => .ok ⟨discOrder, orderF, hms, m⟩

/-- Index of a node in the final `_node_to_id` insertion order: the integer
id the construction assigned to it. -/
def idOf : List Nat → Nat → Option Nat
  | [], _ => none
  | x :: xs, n => if x = n then some 0 else (idOf xs n).map (fun k => k + 1)

/-- Dict lookup `self._node_to_id[node]`, raising `KeyError` when absent. -/
def lookupId (nodeToId : List Nat) (n : Nat) : Except String Nat :=
  match idOf nodeToId n with
  | none => .error "KeyError"
  | some k => .ok k

/-- Lines 53-56 of `GraphAutoModel.build`: seed `real_nodes` with the built
designated inputs; we track which ids hold a concrete value. -/
def materializeInputs (nodeToId : List Nat) : List Nat → List Nat →
    Except String (List Nat)
  | [], real => .ok real
  | i :: is, real =>
    match lookupId nodeToId i with
    | .error e => .error e
    | .ok k => materializeInputs nodeToId is (real ++ [k])

/-- Lines 57-65 of `GraphAutoModel.build`: walk the block order; gathering
`real_nodes[self._node_to_id[input_node]]` raises `KeyError` when an input
node's value was never stored; then store a value under every output id. -/
def materializeBlocks (g : GraphE) (nodeToId : List Nat) : List Nat → List Nat →
    Except String (List Nat)
  | [], real => .ok real
  | b :: bs, real =>
    let blk := g.blocks.getD b defaultBlock
    match blk.inputs.foldlM
        (fun (_ : Unit) n =>
          match lookupId nodeToId n with
          | .error e => Except.error e
          | .ok k => if k ∈ real then Except.ok () else Except.error "KeyError") () with
    | .error e => .error e
    | .ok _ =>
      match blk.outputs.foldlM
          (fun (acc : List Nat) n =>
            match lookupId nodeToId n with
            | .error e => Except.error e
            | .ok k => Except.ok (acc ++ [k])) real with
      | .error e => .error e
      | .ok real2 => materializeBlocks g nodeToId bs real2

/-- Lines 66-70 of `GraphAutoModel.build`: read the concrete values of the
designated outputs out of `real_nodes`. -/
def materializeOutputs (nodeToId : List Nat) (real : List Nat) : List Nat →
    Except String (List Nat)
  | [] => .ok []
  | o :: os =>
    match lookupId nodeToId o with
    | .error e => .error e
    | .ok k =>
      if k ∈ real then
        match materializeOutputs nodeToId real os with
        | .error e => .error e
        | .ok ks => .ok (k :: ks)
      else .error "KeyError"

/-- `GraphAutoModel.build` (lines 52-72), abstracted to value availability:
concrete tensor values are opaque, so we track the set of node ids that hold
a value and reproduce exactly the dict lookups the Python code performs. -/
def buildModel (g : GraphE) (res : BuildOut) : Except String (List Nat) :=
  match materializeInputs res.nodeToId g.inputs [] with
  | .error e => .error e
  | .ok real0 =>
    match materializeBlocks g res.nodeToId res.hms real0 with
    | .error e => .error e
    | .ok real =>
      materializeOutputs res.nodeToId real g.outputs

/-- Python `x or default` for the integer `max_trials` argument: `None` and
`0` are falsy. -/
def pyOrNat (x : Option Nat) (d : Nat) : Nat :=
  match x with
  | none => d
  | some n => if n = 0 then d else n

/-- Python `x or default` for the string `directory` argument: `None` and the
empty string are falsy. -/
def pyOrStr (x : Option String) (d : String) : String :=
  match x with
  | none => d
  | some s => if s = "" then d else s

/-- The two configuration fields assigned in `GraphAutoModel.__init__`. -/
structure AutoModelConfig where
  maxTrials : Nat
  directory : String
deriving DecidableEq, Repr

/-- Lines 44-45 of `GraphAutoModel.__init__`.  Modelled from the spec: the
module `autokeras/const.py` defining `Constant.NUM_TRAILS` and
`Constant.TEMP_DIRECTORY` is not under `src/`; the spec treats the trial
budget and storage location as opaque configuration values, so the two
defaults are parameters here. -/
def initConfig (maxTrials : Option Nat) (directory : Option String)
    (numTrailsDefault : Nat) (tempDirDefault : String) : AutoModelConfig :=
  ⟨pyOrNat maxTrials numTrailsDefault, pyOrStr directory tempDirDefault⟩

/-- Fields of `self` rebuilt wholesale by `_build_network`: it starts by
reassigning `self._node_to_id = {}` (line 75) and `self._hypermodels = []`,
`self._hypermodel_to_id = {}` (lines 88-89), so any prior values of these
fields are discarded. -/
structure PriorState where
  nodeToId : List Nat
  nodes : List Nat
  hms : List Nat
deriving DecidableEq, Repr

/-- `_build_network` as invoked on an instance whose mutable fields hold
`prior`: the method begins by resetting every field it reads or writes, so
the prior state does not enter the computation. -/
def buildNetworkFrom (_prior : PriorState) (g : GraphE) : Except String BuildOut :=
  buildNetwork g

/-- Shape attribute used by the concrete example graphs: node `n` has shape
descriptor `n`, so distinct nodes have distinct shapes. -/
def idShape : Nat → Nat := fun n => n

/-- Scenario 1 of the spec: one designated input node `0` feeding one block
whose single output node `1` is the designated output. -/
def gC4 : GraphE := ⟨2, [⟨[0], [1], "B"⟩], [0], [1], idShape⟩

/-- The construction result of `buildNetwork gC4`: the designated output
node `1` was added to `_node_to_id` first (DFS post-order), so it has id 0
and the designated input node `0` has id 1. -/
def gC4Res : BuildOut := ⟨[1, 0], [1, 0], [0], [(0, 1)]⟩

/-- A valid acyclic connected graph with two designated inputs `0` and `1`:
block `P` (index 0) turns input `1` into node `2`, block `Q` (index 1)
merges input `0` with node `2` into the designated output `3`.  The BFS
registers `Q` when it pops input `0`, before `P` is registered, so the block
order is `[Q, P]` although `Q` consumes `P`'s output. -/
def gMulti : GraphE := ⟨4, [⟨[1], [2], "P"⟩, ⟨[0, 2], [3], "Q"⟩], [0, 1], [3], idShape⟩

/-- The construction result of `buildNetwork gMulti`. -/
def gMultiRes : BuildOut := ⟨[3, 0, 2, 1], [3, 0, 2, 1], [1, 0], [(1, 3)]⟩

/-- Input `0` feeds block `P` (index 0) with two outputs: node `1` leading
through head block `H` (index 1) to the designated output `3`, and the
dangling node `2` feeding block `Q` (index 2) whose output `4` leads
nowhere.  Nodes `2` and `4` and block `Q` lie on no input-output path. -/
def gDangling : GraphE :=
  ⟨5, [⟨[0], [1, 2], "P"⟩, ⟨[1], [3], "H"⟩, ⟨[2], [4], "Q"⟩], [0], [3], idShape⟩

/-- The construction result of `buildNetwork gDangling`: the dangling node
`2` received id 3 during block ordering. -/
def gDanglingRes : BuildOut := ⟨[3, 1, 0], [3, 1, 0, 2], [0, 1], [(1, 3)]⟩

/-- A graph with a self-loop at node `1`, reachable from the designated
input `0`: the single block consumes nodes `0` and `1` and outputs node
`1`. -/
def gCycleA : GraphE := ⟨2, [⟨[0, 1], [1], "L"⟩], [0], [1], idShape⟩

/-- A graph with a self-loop at node `2` (a different offending node than in
`gCycleA`), reachable from the designated input `0`. -/
def gCycleB : GraphE := ⟨3, [⟨[0, 2], [2], "L"⟩], [0], [2], idShape⟩

/-- Scenario 2 of the spec: two designated inputs `0` and `1` feeding the
merge block `M` (index 0) producing node `2`, followed by head block `H`
(index 1) producing the designated output `3`.  Node `2` is reachable from
both roots. -/
def gShared : GraphE := ⟨4, [⟨[0, 1], [2], "M"⟩, ⟨[2], [3], "H"⟩], [0, 1], [3], idShape⟩

/-- The construction result of `buildNetwork gShared`. -/
def gSharedRes : BuildOut := ⟨[3, 2, 0, 1], [3, 2, 0, 1], [0, 1], [(1, 3)]⟩

/-- One block (index 0) whose two output nodes `1` and `2` are both
designated outputs, with distinct shapes (`idShape`). -/
def gTwoOut : GraphE := ⟨3, [⟨[0], [1, 2], "B"⟩], [0], [1, 2], idShape⟩

/-- The construction result of `buildNetwork gTwoOut`: the block's declared
output shape is the shape of output `2`, the later of its two designated
outputs. -/
def gTwoOutRes : BuildOut := ⟨[1, 2, 0], [1, 2, 0], [0], [(0, 2)]⟩

/-- An acyclic graph with an orphan designated output: node `2` is a
designated output with no producing block and no path from the input. -/
def gDisc : GraphE := ⟨3, [⟨[0], [1], "B"⟩], [0], [1, 2], idShape⟩

/-- A graph that is BOTH disconnected and cyclic: designated output `3` has
no producing block, while a self-loop at node `1` is reachable from the
designated input `0`. -/
def gDiscCycle : GraphE := ⟨4, [⟨[0, 1], [1], "L"⟩], [0], [1, 3], idShape⟩

/-! ## Basic lemmas about the graph model -/

theorem mem_outHypermodels {g : GraphE} {n b : Nat} :
    b ∈ outHypermodels g n ↔
      b < g.blocks.length ∧ n ∈ (g.blocks.getD b defaultBlock).inputs := by
  unfold outHypermodels
  simp only [List.mem_flatMap, List.mem_range, List.mem_replicate, ne_eq]
  constructor
  · rintro ⟨a, ha, hc, rfl⟩
    refine ⟨ha, ?_⟩
    rw [← List.count_pos_iff]
    omega
  · rintro ⟨hb, hn⟩
    refine ⟨b, hb, ?_, rfl⟩
    rw [← List.count_pos_iff] at hn
    omega

theorem mem_inHypermodels {g : GraphE} {n b : Nat} :
    b ∈ inHypermodels g n ↔
      b < g.blocks.length ∧ n ∈ (g.blocks.getD b defaultBlock).outputs := by
  unfold inHypermodels
  simp only [List.mem_flatMap, List.mem_range, List.mem_replicate, ne_eq]
  constructor
  · rintro ⟨a, ha, hc, rfl⟩
    refine ⟨ha, ?_⟩
    rw [← List.count_pos_iff]
    omega
  · rintro ⟨hb, hn⟩
    refine ⟨b, hb, ?_, rfl⟩
    rw [← List.count_pos_iff] at hn
    omega

theorem hasEdge_iff_mem_edgeTargets {g : GraphE} {u v : Nat} :
    hasEdge g u v ↔ v ∈ edgeTargets g u := by
  unfold hasEdge edgeTargets
  simp only [List.mem_flatMap]

theorem mem_of_reaches_closed {g : GraphE} {S : List Nat} {u v : Nat}
    (hS : ∀ x ∈ S, ∀ y ∈ edgeTargets g x, y ∈ S) (hu : u ∈ S)
    (h : reaches g u v) : v ∈ S := by
  unfold reaches at h
  induction h with
  | refl => exact hu
  | tail hab hbc ih => exact hS _ ih _ (hasEdge_iff_mem_edgeTargets.mp hbc)

theorem not_reaches_of_closed {g : GraphE} {S : List Nat} {u v : Nat}
    (hS : ∀ x ∈ S, ∀ y ∈ edgeTargets g x, y ∈ S) (hu : u ∈ S) (hv : v ∉ S) :
    ¬ reaches g u v :=
  fun h => hv (mem_of_reaches_closed hS hu h)

theorem no_cycle_of_rank {g : GraphE} (f : Nat → Nat)
    (hf : ∀ u v, hasEdge g u v → f v < f u) :
    ∀ v, ¬ Relation.TransGen (hasEdge g) v v := by
  have key : ∀ u v, Relation.TransGen (hasEdge g) u v → f v < f u := by
    intro u v h
    induction h with
    | single h => exact hf _ _ h
    | tail _ hbc ih => exact lt_trans (hf _ _ hbc) ih
  intro v h
  exact lt_irrefl _ (key v v h)

theorem getD_mem_of_lt {α : Type} {l : List α} {i : Nat} {d : α}
    (h : i < l.length) : l.getD i d ∈ l := by
  rw [List.getD_eq_getElem?_getD, List.getElem?_eq_getElem h]
  simp

/-! ## C4: single-block scenario (corrected: the ids are swapped) -/

/-- C4, counterexample: on the single-block graph the designated input node
`0` receives id 1 and the designated output node `1` receives id 0 — not
`id(input)=0, id(output)=1` as the claim states.  `_search_network` adds
nodes to `_node_to_id` in DFS post-order, so the deepest interesting node
(the output) is inserted first. -/
theorem c4_counterexample :
    buildNetwork gC4 = Except.ok gC4Res ∧
    idOf gC4Res.nodeToId 0 = some 1 ∧
    idOf gC4Res.nodeToId 1 = some 0 ∧
    idOf gC4Res.nodeToId 0 ≠ some 0 := by
  refine ⟨rfl, rfl, rfl, ?_⟩
  decide

/-- C4, amended: for the single input node feeding one block whose single
output node is the designated output, construction produces the block order
`[Block]`, assigns id 0 to the OUTPUT node and id 1 to the INPUT node
(insertion order is DFS post-order, not discovery-entry order). -/
theorem c4_amended :
    buildNetwork gC4 = Except.ok gC4Res ∧
    gC4Res.hms = [0] ∧
    idOf gC4Res.nodeToId 1 = some 0 ∧
    idOf gC4Res.nodeToId 0 = some 1 :=
  ⟨rfl, rfl, rfl, rfl⟩

/-! ## C7: determinism of construction -/

/-- C7: `_build_network` is a pure function of the graph topology: it begins
by resetting every instance field it uses (`self._node_to_id = {}` at line
75, `self._hypermodels = []` and `self._hypermodel_to_id = {}` at lines
88-89), so invoking construction twice on the same topology — in particular
a second invocation on an instance whose fields still hold the first run's
results — yields identical id assignments and an identical block order. -/
theorem c7_theorem :
    ∀ (p1 p2 : PriorState) (g : GraphE),
      buildNetworkFrom p1 g = buildNetworkFrom p2 g ∧
      buildNetworkFrom p1 g = buildNetwork g :=
  fun _ _ _ => ⟨rfl, rfl⟩

/-! ## C10: falsy constructor arguments are replaced by defaults -/

/-- C10: in `GraphAutoModel.__init__`, `max_trials or Constant.NUM_TRAILS`
replaces any falsy `max_trials` — both the `None` default and an explicit
`0` — with the session default, so the field can only be 0 if the default
itself is 0; likewise a falsy `directory` (`None` or the empty string) is
replaced by the default temporary directory. -/
theorem c10_theorem :
    ∀ (d : Nat) (s : String) (mt : Option Nat) (dir : Option String),
      (initConfig none dir d s).maxTrials = d ∧
      (initConfig (some 0) dir d s).maxTrials = d ∧
      (d ≠ 0 → (initConfig mt dir d s).maxTrials ≠ 0) ∧
      (initConfig mt none d s).directory = s ∧
      (initConfig mt (some "") d s).directory = s := by
  intro d s mt dir
  refine ⟨rfl, rfl, ?_, ?_, rfl⟩
  · intro hd
    cases mt with
    | none => exact hd
    | some n =>
      by_cases hn : n = 0
      · subst hn; exact hd
      · simp [initConfig, pyOrNat, hn]
  · cases mt with
    | none => rfl
    | some n => by_cases hn : n = 0 <;> simp [initConfig, pyOrStr]

/-- Witness for C10 at concrete arguments. -/
theorem c10_witness :
    (initConfig none (some "keep") 7 "tmp").maxTrials = 7 ∧
    (initConfig (some 0) (some "keep") 7 "tmp").maxTrials = 7 ∧
    ((7 : Nat) ≠ 0 → (initConfig (some 3) (some "keep") 7 "tmp").maxTrials ≠ 0) ∧
    (initConfig (some 3) none 7 "tmp").directory = "tmp" ∧
    (initConfig (some 3) (some "") 7 "tmp").directory = "tmp" :=
  c10_theorem 7 "tmp" (some 3) (some "keep")

/-! ## Counterexamples for C1, C2, C3, C5, C8, C9 -/

/-- C1, counterexample: `gMulti` is valid (acyclic, connected), yet the
produced block order is `[Q, P]` (block indices `[1, 0]`) while node `2`,
an input of `Q`, is neither a designated input nor an output of a block
earlier in the order (it is produced by `P`, which appears later), and the
materialization of `GraphAutoModel.build` fails with `KeyError` when it
looks up the value of node `2`. -/
theorem c1_counterexample :
    WFGraph gMulti ∧
    buildNetwork gMulti = Except.ok gMultiRes ∧
    gMultiRes.hms = [1, 0] ∧
    (2 : Nat) ∈ (gMulti.blocks.getD 1 defaultBlock).inputs ∧
    (2 : Nat) ∉ gMulti.inputs ∧
    (2 : Nat) ∈ (gMulti.blocks.getD 0 defaultBlock).outputs ∧
    buildModel gMulti gMultiRes = Except.error "KeyError" := by
  refine ⟨by decide, rfl, rfl, by decide, by decide, by decide, rfl⟩

/-- C2, counterexample: the cycle error does not name the offending node.
`gCycleA` has its self-loop at node `1` and `gCycleB` at node `2`, yet both
constructions raise the identical constant message
`The network has a cycle.`, which therefore identifies no node. -/
theorem c2_counterexample :
    buildNetwork gCycleA = Except.error "The network has a cycle." ∧
    buildNetwork gCycleB = Except.error "The network has a cycle." ∧
    hasEdge gCycleA 1 1 ∧
    hasEdge gCycleB 2 2 ∧
    ¬ hasEdge gCycleA 2 2 ∧
    (1 : Nat) ≠ 2 := by
  refine ⟨rfl, rfl, by decide, by decide, by decide, by decide⟩

/-- C3, counterexample: in `gDiscCycle` the designated output `3` has no
producing block and no path from the designated input, yet construction
raises the cycle error (the reachable self-loop at node `1` is hit during
discovery, before the connectivity check), not the disconnected error. -/
theorem c3_counterexample :
    inHypermodels gDiscCycle 3 = [] ∧
    (3 : Nat) ∈ gDiscCycle.outputs ∧
    ¬ reaches gDiscCycle 0 3 ∧
    buildNetwork gDiscCycle = Except.error "The network has a cycle." ∧
    "The network has a cycle." ≠ "Inputs and outputs not connected." := by
  refine ⟨rfl, by decide, ?_, rfl, by decide⟩
  exact not_reaches_of_closed (S := [0, 1]) (by decide) (by decide) (by decide)

/-- C5, counterexample: in `gDangling` node `2` lies on no path between the
designated input and the designated output (it does not reach the output),
yet it receives an integer id: `_add_hypermodel` assigns ids to ALL output
nodes of a registered block (line 143-144), including off-path ones. -/
theorem c5_counterexample :
    WFGraph gDangling ∧
    buildNetwork gDangling = Except.ok gDanglingRes ∧
    (2 : Nat) ∈ gDanglingRes.nodeToId ∧
    idOf gDanglingRes.nodeToId 2 = some 3 ∧
    ¬ reachesOutput gDangling 2 := by
  refine ⟨by decide, rfl, by decide, rfl, ?_⟩
  rintro ⟨o, ho, hr⟩
  have ho3 : o = 3 := by
    cases ho with
    | head => rfl
    | tail _ h => cases h
  subst ho3
  exact not_reaches_of_closed (S := [2, 4]) (by decide) (by decide) (by decide) hr

/-- C8, counterexample: in `gTwoOut` the designated outputs `1` and `2` are
both produced by block `0`; finalization assigns the block's declared output
shape once per designated output in list order, so the final declared shape
is the shape of output `2`, not the shape of output `1` — the claim fails
for output `1`. -/
theorem c8_counterexample :
    buildNetwork gTwoOut = Except.ok gTwoOutRes ∧
    (1 : Nat) ∈ gTwoOut.outputs ∧
    inHypermodels gTwoOut 1 = [0] ∧
    lookupShape gTwoOutRes.shapeMap 0 = some 2 ∧
    gTwoOut.shapes 1 = 1 ∧
    lookupShape gTwoOutRes.shapeMap 0 ≠ some (gTwoOut.shapes 1) := by
  refine ⟨rfl, by decide, rfl, rfl, rfl, by decide⟩

/-- C9, counterexample: `_build_network` (line 79) passes a FRESH empty
`visited_nodes` set to each root call of `_search_network`.  On `gShared`
the merge node `2` is fully processed by the traversal from root `0` (it is
in that call's final visited set), and the traversal from root `1` — which
starts again from an empty visited set, as in `searchAll` — enters node `2`
a second time (it is in that call's final visited set as well, which could
only happen by running its DFS body again). -/
theorem c9_counterexample :
    searchNetwork gShared (searchFuel gShared) 0 [] ⟨[], []⟩ =
      Except.ok ⟨[3, 2, 0], [3, 2, 0]⟩ ∧
    searchNetwork gShared (searchFuel gShared) 1 [] ⟨[], [3, 2, 0]⟩ =
      Except.ok ⟨[3, 2, 1], [3, 2, 0, 1]⟩ ∧
    (2 : Nat) ∈ ([3, 2, 0] : List Nat) ∧
    (2 : Nat) ∈ ([3, 2, 1] : List Nat) ∧
    buildNetwork gShared = Except.ok gSharedRes := by
  refine ⟨rfl, rfl, by decide, by decide, rfl⟩

/-! ## DFS discovery: finish-order postconditions -/

theorem finseq_mono {g : GraphE} {base base2 : Nat → Prop} {L : List Nat}
    (h : FinSeq g base L) (hb : ∀ x, base x → base2 x) : FinSeq g base2 L := by
  induction L generalizing base base2 with
  | nil => trivial
  | cons v rest ih =>
    obtain ⟨h1, h2⟩ := h
    exact ⟨fun w hw => hb w (h1 w hw), ih h2 (fun x hx => hx.imp (hb x) id)⟩

theorem finseq_append {g : GraphE} {base base2 : Nat → Prop} {L1 L2 : List Nat}
    (h1 : FinSeq g base L1) (h2 : FinSeq g base2 L2)
    (hb : ∀ x, base2 x → base x ∨ x ∈ L1) : FinSeq g base (L1 ++ L2) := by
  induction L1 generalizing base with
  | nil =>
    simpa using finseq_mono h2 (fun x hx => (hb x hx).resolve_right (by simp))
  | cons v rest ih =>
    obtain ⟨hv, hrest⟩ := h1
    refine ⟨hv, ih hrest ?_⟩
    intro x hx
    rcases hb x hx with h | h
    · exact Or.inl (Or.inl h)
    · rcases List.mem_cons.mp h with h | h
      · exact Or.inl (Or.inr h)
      · exact Or.inr h

theorem segPost_nil {g : GraphE} {src : Nat → Prop} {inStack1 : List Nat}
    {st : SState} : SegPost g src [] inStack1 st st := by
  refine ⟨[], [], ?_, ?_, ?_, ?_, ?_, ?_, ?_, ?_, ?_, ?_⟩ <;> simp [FinSeq]

theorem segPost_mono {g : GraphE} {src src2 : Nat → Prop} {need need2 : List Nat}
    {inStack1 inStack2 : List Nat} {st st2 : SState}
    (h : SegPost g src need inStack1 st st2)
    (hs : ∀ s, src s → src2 s)
    (hn : ∀ x ∈ need2, x ∈ need)
    (hstk : ∀ x, x ∈ inStack2 → x ∈ inStack1) :
    SegPost g src2 need2 inStack2 st st2 := by
  obtain ⟨L, dO, hiff, hnd, hfresh, hlt, hreach, hord, hdo, hfs, hvnd, hneed⟩ := h
  refine ⟨L, dO, hiff, hnd, hfresh, hlt, ?_, hord, hdo, ?_, hvnd, ?_⟩
  · intro x hx
    obtain ⟨s, hs1, hs2⟩ := hreach x hx
    exact ⟨s, hs s hs1, hs2⟩
  · exact finseq_mono hfs (fun x hx => ⟨hx.1, fun hc => hx.2 (hstk x hc)⟩)
  · intro x hx
    exact hneed x (hn x hx)

theorem segPost_comp {g : GraphE} {src1 src2 : Nat → Prop} {need1 need2 : List Nat}
    {inStack1 : List Nat} {st0 st1 st2 : SState}
    (h1 : SegPost g src1 need1 inStack1 st0 st1)
    (h2 : SegPost g src2 need2 inStack1 st1 st2) :
    SegPost g (fun s => src1 s ∨ src2 s) (need1 ++ need2) inStack1 st0 st2 := by
  obtain ⟨L1, d1, hiff1, hnd1, hfresh1, hlt1, hreach1, hord1, hdo1, hfs1, hvnd1, hneed1⟩ := h1
  obtain ⟨L2, d2, hiff2, hnd2, hfresh2, hlt2, hreach2, hord2, hdo2, hfs2, hvnd2, hneed2⟩ := h2
  refine ⟨L1 ++ L2, d1 ++ d2, ?_, ?_, ?_, ?_, ?_, ?_, ?_, ?_, ?_, ?_⟩
  · intro x
    rw [hiff2, hiff1]
    simp [List.mem_append]
    tauto
  · rw [List.nodup_append]
    refine ⟨hnd1, hnd2, ?_⟩
    intro x hx1 hx2
    exact hfresh2 x hx2 ((hiff1 x).mpr (Or.inl hx1))
  · intro x hx
    rcases List.mem_append.mp hx with h | h
    · exact hfresh1 x h
    · intro hc
      exact hfresh2 x h ((hiff1 x).mpr (Or.inr hc))
  · intro x hx
    rcases List.mem_append.mp hx with h | h
    · exact hlt1 x h
    · exact hlt2 x h
  · intro x hx
    rcases List.mem_append.mp hx with h | h
    · exact (hreach1 x h).imp (fun s hs => ⟨Or.inl hs.1, hs.2⟩)
    · exact (hreach2 x h).imp (fun s hs => ⟨Or.inr hs.1, hs.2⟩)
  · rw [hord2, hord1, List.append_assoc]
  · intro x hx
    rcases List.mem_append.mp hx with h | h
    · exact List.mem_append.mpr (Or.inl (hdo1 x h))
    · exact List.mem_append.mpr (Or.inr (hdo2 x h))
  · refine finseq_append hfs1 hfs2 ?_
    intro x hx
    rcases (hiff1 x).mp hx.1 with h | h
    · exact Or.inr h
    · exact Or.inl ⟨h, hx.2⟩
  · intro h
    exact hvnd2 (hvnd1 h)
  · intro x hx
    rcases List.mem_append.mp hx with h | h
    · exact List.mem_append.mpr (Or.inl (hneed1 x h))
    · exact List.mem_append.mpr (Or.inr (hneed2 x h))

theorem searchOuts_post {g : GraphE} {rec : Nat → List Nat → SState → Except String SState}
    (hrec : NetSpec g rec) :
    ∀ (outs inStack1 : List Nat) (st : SState) (r : Bool) (st2 : SState) (r2 : Bool),
      (∀ o ∈ outs, o < g.numNodes) →
      searchOuts rec outs inStack1 st r = .ok (st2, r2) →
      SegPost g (fun s => s ∈ outs) [] inStack1 st st2 ∧
      (∀ out ∈ outs, out ∉ inStack1 ∧ out ∈ st2.visited) := by
  intro outs
  induction outs with
  | nil =>
    intro inStack1 st r st2 r2 _ h
    simp only [searchOuts] at h
    cases h
    exact ⟨segPost_nil, by simp⟩
  | cons out outs ih =>
    intro inStack1 st r st2 r2 hN h
    simp only [searchOuts] at h
    by_cases hstk : out ∈ inStack1
    · rw [if_pos hstk] at h
      cases h
    rw [if_neg hstk] at h
    by_cases hv : out ∈ st.visited
    · rw [if_pos hv] at h
      obtain ⟨hseg, houts⟩ := ih inStack1 st _ st2 r2
        (fun o ho => hN o (List.mem_cons_of_mem _ ho)) h
      refine ⟨segPost_mono hseg (fun s hs => List.mem_cons_of_mem _ hs)
        (by simp) (fun x hx => hx), ?_⟩
      intro o ho
      rcases List.mem_cons.mp ho with rfl | ho
      · obtain ⟨L, dO, hiff, _⟩ := hseg
        exact ⟨hstk, (hiff o).mpr (Or.inr hv)⟩
      · exact houts o ho
    · rw [if_neg hv] at h
      cases hres : rec out inStack1 st with
      | error e => rw [hres] at h; cases h
      | ok stm =>
        rw [hres] at h
        have hsub := hrec out inStack1 st stm (hN out (List.mem_cons_self _ _)) hv hres
        have houtm : out ∈ stm.visited := by
          obtain ⟨L, dO, hiff, _, _, _, _, _, _, _, _, hneed⟩ := hsub
          exact (hiff out).mpr (Or.inl (hneed out (List.mem_cons_self _ _)))
        obtain ⟨hseg2, houts2⟩ := ih inStack1 stm _ st2 r2
          (fun o ho => hN o (List.mem_cons_of_mem _ ho)) h
        have hsub2 := segPost_mono hsub (fun s hs => show s ∈ out :: outs by
            rw [hs]; exact List.mem_cons_self _ _)
          (fun x (hx : x ∈ ([] : List Nat)) => by cases hx)
          (fun x hx => List.mem_cons_of_mem _ hx)
        have hseg2m := segPost_mono hseg2
          (fun s hs => show s ∈ out :: outs from List.mem_cons_of_mem _ hs)
          (fun x hx => hx) (fun x hx => hx)
        have hcomp := segPost_comp hsub2 hseg2m
        refine ⟨segPost_mono hcomp (fun s hs => hs.elim id id) (by simp)
          (fun x hx => hx), ?_⟩
        intro o ho
        rcases List.mem_cons.mp ho with rfl | ho
        · refine ⟨hstk, ?_⟩
          obtain ⟨L, dO, hiff, _⟩ := hseg2
          exact (hiff o).mpr (Or.inr houtm)
        · exact houts2 o ho

theorem searchBlocks_post {g : GraphE} {rec : Nat → List Nat → SState → Except String SState}
    (hrec : NetSpec g rec) :
    ∀ (bs inStack1 : List Nat) (st : SState) (r : Bool) (st2 : SState) (r2 : Bool),
      (∀ b ∈ bs, ∀ o ∈ (g.blocks.getD b defaultBlock).outputs, o < g.numNodes) →
      searchBlocks g rec bs inStack1 st r = .ok (st2, r2) →
      SegPost g (fun s => ∃ b ∈ bs, s ∈ (g.blocks.getD b defaultBlock).outputs)
        [] inStack1 st st2 ∧
      (∀ b ∈ bs, ∀ out ∈ (g.blocks.getD b defaultBlock).outputs,
        out ∉ inStack1 ∧ out ∈ st2.visited) := by
  intro bs
  induction bs with
  | nil =>
    intro inStack1 st r st2 r2 _ h
    simp only [searchBlocks] at h
    cases h
    exact ⟨segPost_nil, by simp⟩
  | cons b bs ih =>
    intro inStack1 st r st2 r2 hN h
    simp only [searchBlocks] at h
    cases hres : searchOuts rec (g.blocks.getD b defaultBlock).outputs inStack1 st r with
    | error e => rw [hres] at h; cases h
    | ok p =>
      obtain ⟨stm, rm⟩ := p
      rw [hres] at h
      obtain ⟨hseg1, houts1⟩ := searchOuts_post hrec _ inStack1 st r stm rm
        (hN b (List.mem_cons_self _ _)) hres
      obtain ⟨hseg2, houts2⟩ := ih inStack1 stm rm st2 r2
        (fun a ha => hN a (List.mem_cons_of_mem _ ha)) h
      have h1m : SegPost g
          (fun s => ∃ a ∈ b :: bs, s ∈ (g.blocks.getD a defaultBlock).outputs)
          [] inStack1 st stm :=
        segPost_mono hseg1 (fun s hs => ⟨b, List.mem_cons_self _ _, hs⟩)
          (fun x hx => hx) (fun x hx => hx)
      have h2m : SegPost g
          (fun s => ∃ a ∈ b :: bs, s ∈ (g.blocks.getD a defaultBlock).outputs)
          [] inStack1 stm st2 :=
        segPost_mono hseg2
          (fun s hs => by
            obtain ⟨a, ha, h2⟩ := hs
            exact ⟨a, List.mem_cons_of_mem _ ha, h2⟩)
          (fun x hx => hx) (fun x hx => hx)
      have hcomp := segPost_comp h1m h2m
      refine ⟨segPost_mono hcomp (fun s hs => hs.elim id id) (by simp)
        (fun x hx => hx), ?_⟩
      intro a ha out hout
      rcases List.mem_cons.mp ha with rfl | ha
      · obtain ⟨hn1, hn2⟩ := houts1 out hout
        refine ⟨hn1, ?_⟩
        obtain ⟨L, dO, hiff, _⟩ := hseg2
        exact (hiff out).mpr (Or.inr hn2)
      · exact houts2 a ha out hout

theorem netSpec_zero {g : GraphE} : NetSpec g (searchNetwork g 0) := by
  intro node inStack st st2 _ _ h
  simp only [searchNetwork] at h
  cases h

theorem netSpec_succ {g : GraphE} (hw : WFGraph g) {fuel : Nat}
    (ih : NetSpec g (searchNetwork g fuel)) :
    NetSpec g (searchNetwork g (fuel + 1)) := by
  intro node inStack st st2 hlt hnv h
  simp only [searchNetwork] at h
  have hN : ∀ b ∈ outHypermodels g node,
      ∀ o ∈ (g.blocks.getD b defaultBlock).outputs, o < g.numNodes := by
    intro b hb o ho
    rw [mem_outHypermodels] at hb
    exact hw.2.1 _ (getD_mem_of_lt hb.1) _ ho
  cases hres : searchBlocks g (searchNetwork g fuel) (outHypermodels g node)
      (node :: inStack) ⟨insertVisited node st.visited, st.order⟩
      (decide (node ∈ g.outputs)) with
  | error e => rw [hres] at h; cases h
  | ok p =>
    obtain ⟨stm, reached⟩ := p
    rw [hres] at h
    injection h with h
    subst h
    obtain ⟨hseg, houts⟩ := searchBlocks_post ih _ _ _ _ _ _ hN hres
    obtain ⟨L, dO, hiff, hnd, hfresh, hltL, hreach, hord, hdo, hfs, hvnd, _⟩ := hseg
    have hv1 : insertVisited node st.visited = node :: st.visited := if_neg hnv
    rw [hv1] at hiff hfresh hfs hvnd
    have hnodeL : node ∉ L := fun hc => hfresh node hc (List.mem_cons_self _ _)
    have horder2 : ∃ dO2 : List Nat,
        (if reached = true then addNode node stm.order else stm.order) =
          st.order ++ dO2 ∧ ∀ x ∈ dO2, x ∈ L ++ [node] := by
      by_cases hr : reached = true
      · rw [if_pos hr]
        unfold addNode
        by_cases hmem : node ∈ stm.order
        · rw [if_pos hmem]
          exact ⟨dO, hord, fun x hx => List.mem_append.mpr
            (Or.inl (hdo x hx))⟩
        · rw [if_neg hmem, hord, List.append_assoc]
          refine ⟨dO ++ [node], rfl, ?_⟩
          intro x hx
          rcases List.mem_append.mp hx with h | h
          · exact List.mem_append.mpr (Or.inl (hdo x h))
          · exact List.mem_append.mpr (Or.inr h)
      · rw [if_neg hr]
        exact ⟨dO, hord, fun x hx => List.mem_append.mpr (Or.inl (hdo x hx))⟩
    obtain ⟨dO2, hord2, hdo2⟩ := horder2
    refine ⟨L ++ [node], dO2, ?_, ?_, ?_, ?_, ?_, hord2, hdo2, ?_, ?_, ?_⟩
    · intro x
      show x ∈ stm.visited ↔ _
      rw [hiff x]
      simp only [List.mem_append, List.mem_cons, List.mem_singleton]
      tauto
    · rw [List.nodup_append]
      exact ⟨hnd, List.nodup_singleton _, by
        intro x hx hx2
        rw [List.mem_singleton] at hx2
        subst hx2
        exact hnodeL hx⟩
    · intro x hx
      rcases List.mem_append.mp hx with hxl | hxn
      · intro hc
        exact hfresh x hxl (List.mem_cons_of_mem _ hc)
      · rw [List.mem_singleton] at hxn
        subst hxn
        exact hnv
    · intro x hx
      rcases List.mem_append.mp hx with hxl | hxn
      · exact hltL x hxl
      · rw [List.mem_singleton] at hxn
        subst hxn
        exact hlt
    · intro x hx
      rcases List.mem_append.mp hx with hxl | hxn
      · obtain ⟨s, ⟨b, hb, hso⟩, hr⟩ := hreach x hxl
        refine ⟨node, rfl, ?_⟩
        exact Relation.ReflTransGen.head ⟨b, hb, hso⟩ hr
      · rw [List.mem_singleton] at hxn
        subst hxn
        exact ⟨x, rfl, Relation.ReflTransGen.refl⟩
    · refine finseq_append (finseq_mono hfs ?_) ?_ (fun x hx => hx)
      · rintro x ⟨hxv, hxs⟩
        rcases List.mem_cons.mp hxv with rfl | hxv
        · exact absurd (List.mem_cons_self _ _) hxs
        · exact ⟨hxv, hxs⟩
      · refine ⟨?_, trivial⟩
        intro w hw
        obtain ⟨b, hb, hwo⟩ := hw
        obtain ⟨hw1, hw2⟩ := houts b hb w hwo
        rcases (hiff w).mp hw2 with hwl | hwv
        · exact Or.inr hwl
        · rcases List.mem_cons.mp hwv with rfl | hwv
          · exact absurd (List.mem_cons_self _ _) hw1
          · exact Or.inl ⟨hwv, hw1⟩
    · intro hvd
      exact hvnd (List.nodup_cons.mpr ⟨hnv, hvd⟩)
    · intro x hx
      rw [List.mem_singleton] at hx
      subst hx
      exact List.mem_append.mpr (Or.inr (List.mem_singleton_self _))

theorem netSpec_all {g : GraphE} (hw : WFGraph g) :
    ∀ fuel, NetSpec g (searchNetwork g fuel) := by
  intro fuel
  induction fuel with
  | zero => exact netSpec_zero
  | succ fuel ih => exact netSpec_succ hw ih

theorem nodup_length_le {v : List Nat} {N : Nat} (hnd : v.Nodup)
    (hlt : ∀ x ∈ v, x < N) : v.length ≤ N := by
  have h1 : v.toFinset ⊆ Finset.range N := by
    intro x hx
    rw [List.mem_toFinset] at hx
    exact Finset.mem_range.mpr (hlt x hx)
  have h2 := Finset.card_le_card h1
  rw [List.toFinset_card_of_nodup hnd] at h2
  simpa using h2

theorem nodup_length_mono {a b : List Nat} (ha : a.Nodup) (hb : b.Nodup)
    (hsub : ∀ x, x ∈ a → x ∈ b) : a.length ≤ b.length := by
  have h1 : a.toFinset ⊆ b.toFinset := by
    intro x hx
    rw [List.mem_toFinset] at hx
    exact List.mem_toFinset.mpr (hsub x hx)
  have h2 := Finset.card_le_card h1
  rw [List.toFinset_card_of_nodup ha, List.toFinset_card_of_nodup hb] at h2
  omega


theorem searchOuts_err {g : GraphE} {rec : Nat → List Nat → SState → Except String SState}
    (hrec : ErrSpec g rec) :
    ∀ (outs inStack1 : List Nat) (st : SState) (r : Bool) (e : String),
      searchOuts rec outs inStack1 st r = .error e →
      e = "fuel exhausted" ∨ e = "The network has a cycle." := by
  intro outs
  induction outs with
  | nil =>
    intro inStack1 st r e h
    simp only [searchOuts] at h
    cases h
  | cons out outs ih =>
    intro inStack1 st r e h
    simp only [searchOuts] at h
    by_cases hstk : out ∈ inStack1
    · rw [if_pos hstk] at h
      injection h with h
      exact Or.inr h.symm
    rw [if_neg hstk] at h
    by_cases hv : out ∈ st.visited
    · rw [if_pos hv] at h
      exact ih inStack1 st _ e h
    · rw [if_neg hv] at h
      cases hres : rec out inStack1 st with
      | error e2 =>
        rw [hres] at h
        injection h with h
        exact h ▸ hrec out inStack1 st e2 hres
      | ok stm =>
        rw [hres] at h
        exact ih inStack1 stm _ e h

theorem searchBlocks_err {g : GraphE} {rec : Nat → List Nat → SState → Except String SState}
    (hrec : ErrSpec g rec) :
    ∀ (bs inStack1 : List Nat) (st : SState) (r : Bool) (e : String),
      searchBlocks g rec bs inStack1 st r = .error e →
      e = "fuel exhausted" ∨ e = "The network has a cycle." := by
  intro bs
  induction bs with
  | nil =>
    intro inStack1 st r e h
    simp only [searchBlocks] at h
    cases h
  | cons b bs ih =>
    intro inStack1 st r e h
    simp only [searchBlocks] at h
    cases hres : searchOuts rec (g.blocks.getD b defaultBlock).outputs inStack1 st r with
    | error e2 =>
      rw [hres] at h
      injection h with h
      exact h ▸ searchOuts_err hrec _ inStack1 st r e2 hres
    | ok p =>
      obtain ⟨stm, rm⟩ := p
      rw [hres] at h
      exact ih inStack1 stm rm e h

theorem errSpec_all {g : GraphE} : ∀ fuel, ErrSpec g (searchNetwork g fuel) := by
  intro fuel
  induction fuel with
  | zero =>
    intro node inStack st e h
    simp only [searchNetwork] at h
    injection h with h
    exact Or.inl h.symm
  | succ fuel ih =>
    intro node inStack st e h
    simp only [searchNetwork] at h
    cases hres : searchBlocks g (searchNetwork g fuel) (outHypermodels g node)
        (node :: inStack) ⟨insertVisited node st.visited, st.order⟩
        (decide (node ∈ g.outputs)) with
    | error e2 =>
      rw [hres] at h
      injection h with h
      exact h ▸ searchBlocks_err ih _ _ _ _ e2 hres
    | ok p =>
      obtain ⟨stm, reached⟩ := p
      rw [hres] at h
      cases h



theorem searchOuts_fuel {g : GraphE} {rec : Nat → List Nat → SState → Except String SState}
    {fuel : Nat} (hrecN : NetSpec g rec) (hrecF : FuelSpec g rec fuel) :
    ∀ (outs inStack1 : List Nat) (st : SState) (r : Bool),
      (∀ o ∈ outs, o < g.numNodes) → FuelInv g st →
      g.numNodes + 1 ≤ fuel + st.visited.length →
      searchOuts rec outs inStack1 st r ≠ .error "fuel exhausted" := by
  intro outs
  induction outs with
  | nil =>
    intro inStack1 st r _ _ _ h
    simp only [searchOuts] at h
    cases h
  | cons out outs ih =>
    intro inStack1 st r hN hinv hfl h
    simp only [searchOuts] at h
    by_cases hstk : out ∈ inStack1
    · rw [if_pos hstk] at h
      injection h with h
      exact absurd h.symm (by decide)
    rw [if_neg hstk] at h
    by_cases hv : out ∈ st.visited
    · rw [if_pos hv] at h
      exact ih inStack1 st _ (fun o ho => hN o (List.mem_cons_of_mem _ ho)) hinv hfl h
    · rw [if_neg hv] at h
      cases hres : rec out inStack1 st with
      | error e2 =>
        rw [hres] at h
        injection h with h
        subst h
        exact hrecF out inStack1 st (hN out (List.mem_cons_self _ _)) hv hinv hfl hres
      | ok stm =>
        rw [hres] at h
        have hseg := hrecN out inStack1 st stm (hN out (List.mem_cons_self _ _)) hv hres
        obtain ⟨L, dO, hiff, hnd, hfresh, hltL, _, _, _, _, hvnd, hneed⟩ := hseg
        have hndm : stm.visited.Nodup := hvnd hinv.1
        have hsub : ∀ x, x ∈ st.visited → x ∈ stm.visited :=
          fun x hx => (hiff x).mpr (Or.inr hx)
        have hltm : ∀ x ∈ stm.visited, x < g.numNodes := by
          intro x hx
          rcases (hiff x).mp hx with hxl | hxv
          · exact hltL x hxl
          · exact hinv.2 x hxv
        have hlen : st.visited.length ≤ stm.visited.length :=
          nodup_length_mono hinv.1 hndm hsub
        exact ih inStack1 stm _ (fun o ho => hN o (List.mem_cons_of_mem _ ho))
          ⟨hndm, hltm⟩ (by omega) h

theorem searchBlocks_fuel {g : GraphE} {rec : Nat → List Nat → SState → Except String SState}
    {fuel : Nat} (hrecN : NetSpec g rec) (hrecF : FuelSpec g rec fuel) :
    ∀ (bs inStack1 : List Nat) (st : SState) (r : Bool),
      (∀ b ∈ bs, ∀ o ∈ (g.blocks.getD b defaultBlock).outputs, o < g.numNodes) →
      FuelInv g st →
      g.numNodes + 1 ≤ fuel + st.visited.length →
      searchBlocks g rec bs inStack1 st r ≠ .error "fuel exhausted" := by
  intro bs
  induction bs with
  | nil =>
    intro inStack1 st r _ _ _ h
    simp only [searchBlocks] at h
    cases h
  | cons b bs ih =>
    intro inStack1 st r hN hinv hfl h
    simp only [searchBlocks] at h
    cases hres : searchOuts rec (g.blocks.getD b defaultBlock).outputs inStack1 st r with
    | error e2 =>
      rw [hres] at h
      injection h with h
      subst h
      exact searchOuts_fuel hrecN hrecF _ inStack1 st r
        (hN b (List.mem_cons_self _ _)) hinv hfl hres
    | ok p =>
      obtain ⟨stm, rm⟩ := p
      rw [hres] at h
      obtain ⟨hseg, _⟩ := searchOuts_post hrecN _ inStack1 st r stm rm
        (hN b (List.mem_cons_self _ _)) hres
      obtain ⟨L, dO, hiff, hnd, hfresh, hltL, _, _, _, _, hvnd, _⟩ := hseg
      have hndm : stm.visited.Nodup := hvnd hinv.1
      have hsub : ∀ x, x ∈ st.visited → x ∈ stm.visited :=
        fun x hx => (hiff x).mpr (Or.inr hx)
      have hltm : ∀ x ∈ stm.visited, x < g.numNodes := by
        intro x hx
        rcases (hiff x).mp hx with hxl | hxv
        · exact hltL x hxl
        · exact hinv.2 x hxv
      have hlen : st.visited.length ≤ stm.visited.length :=
        nodup_length_mono hinv.1 hndm hsub
      exact ih inStack1 stm rm (fun a ha => hN a (List.mem_cons_of_mem _ ha))
        ⟨hndm, hltm⟩ (by omega) h

theorem netFuel_all {g : GraphE} (hw : WFGraph g) :
    ∀ fuel, FuelSpec g (searchNetwork g fuel) fuel := by
  intro fuel
  induction fuel with
  | zero =>
    intro node inStack st hlt hnv hinv hfl
    have := nodup_length_le hinv.1 hinv.2
    omega
  | succ fuel ih =>
    intro node inStack st hlt hnv hinv hfl h
    simp only [searchNetwork] at h
    have hN : ∀ b ∈ outHypermodels g node,
        ∀ o ∈ (g.blocks.getD b defaultBlock).outputs, o < g.numNodes := by
      intro b hb o ho
      rw [mem_outHypermodels] at hb
      exact hw.2.1 _ (getD_mem_of_lt hb.1) _ ho
    have hv1 : insertVisited node st.visited = node :: st.visited := if_neg hnv
    cases hres : searchBlocks g (searchNetwork g fuel) (outHypermodels g node)
        (node :: inStack) ⟨insertVisited node st.visited, st.order⟩
        (decide (node ∈ g.outputs)) with
    | error e2 =>
      rw [hres] at h
      injection h with h
      subst h
      refine searchBlocks_fuel (netSpec_all hw fuel) ih _ _ _ _ hN ?_ ?_ hres
      · constructor
        · show (insertVisited node st.visited).Nodup
          rw [hv1]
          exact List.nodup_cons.mpr ⟨hnv, hinv.1⟩
        · show ∀ x ∈ insertVisited node st.visited, x < g.numNodes
          rw [hv1]
          intro x hx
          rcases List.mem_cons.mp hx with rfl | hx
          · exact hlt
          · exact hinv.2 x hx
      · show g.numNodes + 1 ≤ fuel + (insertVisited node st.visited).length
        rw [hv1]
        simp only [List.length_cons]
        omega
    | ok p =>
      obtain ⟨stm, reached⟩ := p
      rw [hres] at h
      cases h

theorem mem_of_reaches_closedP {g : GraphE} {S : Nat → Prop} {u v : Nat}
    (hS : ∀ x, S x → ∀ y, hasEdge g x y → S y) (hu : S u)
    (h : reaches g u v) : S v := by
  unfold reaches at h
  induction h with
  | refl => exact hu
  | tail _ hbc ih => exact hS _ ih _ hbc

theorem finseq_closure {g : GraphE} {base : Nat → Prop} {L : List Nat}
    (h : FinSeq g base L) :
    ∀ v ∈ L, ∀ w, hasEdge g v w → base w ∨ w ∈ L := by
  induction L generalizing base with
  | nil => intro v hv; cases hv
  | cons u rest ih =>
    intro v hv w hw
    obtain ⟨h1, h2⟩ := h
    rcases List.mem_cons.mp hv with rfl | hv
    · exact Or.inl (h1 w hw)
    · rcases ih h2 v hv w hw with hb | hm
      · rcases hb with hb | hb
        · exact Or.inl hb
        · exact Or.inr (hb ▸ List.mem_cons_self _ _)
      · exact Or.inr (List.mem_cons_of_mem _ hm)

theorem finseq_acyclic {g : GraphE} {base : Nat → Prop} {L : List Nat}
    (h : FinSeq g base L) (hnd : L.Nodup)
    (hclosed : ∀ x, base x → ∀ w, hasEdge g x w → base w)
    (hacy : ∀ x, base x → ¬ Relation.TransGen (hasEdge g) x x)
    (hdisj : ∀ x ∈ L, ¬ base x) :
    ∀ v ∈ L, ¬ Relation.TransGen (hasEdge g) v v := by
  induction L generalizing base with
  | nil => intro v hv; cases hv
  | cons u rest ih =>
    obtain ⟨h1, h2⟩ := h
    obtain ⟨hu, hndr⟩ := List.nodup_cons.mp hnd
    have hucyc : ¬ Relation.TransGen (hasEdge g) u u := by
      intro hc
      obtain ⟨w, hw1, hw2⟩ := Relation.TransGen.head'_iff.mp hc
      have hbw : base w := h1 w hw1
      have : base u := mem_of_reaches_closedP hclosed hbw hw2
      exact hdisj u (List.mem_cons_self _ _) this
    intro v hv
    rcases List.mem_cons.mp hv with rfl | hv
    · exact hucyc
    · refine ih h2 hndr ?_ ?_ ?_ v hv
      · intro x hx w hw
        rcases hx with hx | rfl
        · exact Or.inl (hclosed x hx w hw)
        · exact Or.inl (h1 w hw)
      · intro x hx
        rcases hx with hx | rfl
        · exact hacy x hx
        · exact hucyc
      · intro x hx
        rcases List.nodup_cons.mp hnd with ⟨hu2, _⟩
        rintro (hb | rfl)
        · exact hdisj x (List.mem_cons_of_mem _ hx) hb
        · exact hu hx

theorem searchNetwork_root_acyclic {g : GraphE} (hw : WFGraph g) {fuel i : Nat}
    {order : List Nat} {st2 : SState} (hi : i < g.numNodes)
    (hok : searchNetwork g fuel i [] ⟨[], order⟩ = .ok st2) :
    ∀ v, reaches g i v → ¬ Relation.TransGen (hasEdge g) v v := by
  have hseg := netSpec_all hw fuel i [] ⟨[], order⟩ st2 hi (by simp) hok
  obtain ⟨L, dO, hiff, hnd, hfresh, hltL, hreach, hord, hdo, hfs, hvnd, hneed⟩ := hseg
  have hbase : ∀ x, ¬ (x ∈ (⟨[], order⟩ : SState).visited ∧ x ∉ [i]) := by
    rintro x ⟨hx, _⟩
    cases hx
  have hclosedL : ∀ x, x ∈ L → ∀ y, hasEdge g x y → y ∈ L := by
    intro x hx y hy
    rcases finseq_closure hfs x hx y hy with hb | hm
    · exact absurd hb (hbase y)
    · exact hm
  intro v hv
  have hvL : v ∈ L :=
    mem_of_reaches_closedP hclosedL (hneed i (List.mem_cons_self _ _)) hv
  exact finseq_acyclic hfs hnd (fun x hx => absurd hx (hbase x))
    (fun x hx => absurd hx (hbase x)) (fun x _ hx => hbase x hx) v hvL

theorem chain_reaches_head {g : GraphE} :
    ∀ (tl : List Nat) (hd : Nat),
      List.Chain' (fun a b => hasEdge g b a) (hd :: tl) →
      ∀ x ∈ hd :: tl, reaches g x hd := by
  intro tl
  induction tl with
  | nil =>
    intro hd _ x hx
    rcases List.mem_cons.mp hx with rfl | hx
    · exact Relation.ReflTransGen.refl
    · cases hx
  | cons b tl2 ih =>
    intro hd hch x hx
    have hedge : hasEdge g b hd := (List.chain'_cons.mp hch).1
    have hch2 : List.Chain' (fun a b => hasEdge g b a) (b :: tl2) :=
      (List.chain'_cons.mp hch).2
    rcases List.mem_cons.mp hx with rfl | hx
    · exact Relation.ReflTransGen.refl
    · exact Relation.ReflTransGen.tail (ih b hch2 x hx) hedge


theorem searchOuts_sound {g : GraphE} {rec : Nat → List Nat → SState → Except String SState}
    (hrec : SoundSpec g rec) :
    ∀ (outs : List Nat) (nd : Nat) (inStack : List Nat) (st : SState) (r : Bool) (root : Nat),
      List.Chain' (fun a b => hasEdge g b a) (nd :: inStack) →
      (∀ x ∈ nd :: inStack, reaches g root x) →
      (∀ out ∈ outs, hasEdge g nd out) →
      searchOuts rec outs (nd :: inStack) st r = .error "The network has a cycle." →
      ∃ v, reaches g root v ∧ Relation.TransGen (hasEdge g) v v := by
  intro outs
  induction outs with
  | nil =>
    intro nd inStack st r root _ _ _ h
    simp only [searchOuts] at h
    cases h
  | cons out outs ih =>
    intro nd inStack st r root hch hroot hedges h
    simp only [searchOuts] at h
    by_cases hstk : out ∈ nd :: inStack
    · have hcyc : Relation.TransGen (hasEdge g) out out :=
        Relation.TransGen.tail' (chain_reaches_head inStack nd hch out hstk)
          (hedges out (List.mem_cons_self _ _))
      exact ⟨out, hroot out hstk, hcyc⟩
    rw [if_neg hstk] at h
    by_cases hv : out ∈ st.visited
    · rw [if_pos hv] at h
      exact ih nd inStack st _ root hch hroot
        (fun o ho => hedges o (List.mem_cons_of_mem _ ho)) h
    · rw [if_neg hv] at h
      cases hres : rec out (nd :: inStack) st with
      | error e2 =>
        rw [hres] at h
        injection h with h
        subst h
        refine hrec out (nd :: inStack) st root ?_ ?_ hres
        · exact List.chain'_cons.mpr ⟨hedges out (List.mem_cons_self _ _), hch⟩
        · intro x hx
          rcases List.mem_cons.mp hx with rfl | hx
          · exact Relation.ReflTransGen.tail (hroot nd (List.mem_cons_self _ _))
              (hedges x (List.mem_cons_self _ _))
          · exact hroot x hx
      | ok stm =>
        rw [hres] at h
        exact ih nd inStack stm _ root hch hroot
          (fun o ho => hedges o (List.mem_cons_of_mem _ ho)) h

theorem searchBlocks_sound {g : GraphE} {rec : Nat → List Nat → SState → Except String SState}
    (hrec : SoundSpec g rec) :
    ∀ (bs : List Nat) (nd : Nat) (inStack : List Nat) (st : SState) (r : Bool) (root : Nat),
      List.Chain' (fun a b => hasEdge g b a) (nd :: inStack) →
      (∀ x ∈ nd :: inStack, reaches g root x) →
      (∀ b ∈ bs, b ∈ outHypermodels g nd) →
      searchBlocks g rec bs (nd :: inStack) st r = .error "The network has a cycle." →
      ∃ v, reaches g root v ∧ Relation.TransGen (hasEdge g) v v := by
  intro bs
  induction bs with
  | nil =>
    intro nd inStack st r root _ _ _ h
    simp only [searchBlocks] at h
    cases h
  | cons b bs ih =>
    intro nd inStack st r root hch hroot hbs h
    simp only [searchBlocks] at h
    cases hres : searchOuts rec (g.blocks.getD b defaultBlock).outputs
        (nd :: inStack) st r with
    | error e2 =>
      rw [hres] at h
      injection h with h
      subst h
      refine searchOuts_sound hrec _ nd inStack st r root hch hroot ?_ hres
      intro o ho
      exact ⟨b, hbs b (List.mem_cons_self _ _), ho⟩
    | ok p =>
      obtain ⟨stm, rm⟩ := p
      rw [hres] at h
      exact ih nd inStack stm rm root hch hroot
        (fun a ha => hbs a (List.mem_cons_of_mem _ ha)) h

theorem soundSpec_all {g : GraphE} : ∀ fuel, SoundSpec g (searchNetwork g fuel) := by
  intro fuel
  induction fuel with
  | zero =>
    intro node inStack st root _ _ h
    simp only [searchNetwork] at h
    injection h with h
    exact absurd h (by decide)
  | succ fuel ih =>
    intro node inStack st root hch hroot h
    simp only [searchNetwork] at h
    cases hres : searchBlocks g (searchNetwork g fuel) (outHypermodels g node)
        (node :: inStack) ⟨insertVisited node st.visited, st.order⟩
        (decide (node ∈ g.outputs)) with
    | error e2 =>
      rw [hres] at h
      injection h with h
      subst h
      exact searchBlocks_sound ih _ node inStack _ _ root hch hroot
        (fun b hb => hb) hres
    | ok p =>
      obtain ⟨stm, reached⟩ := p
      rw [hres] at h
      cases h


theorem searchOuts_ord {g : GraphE} {rec : Nat → List Nat → SState → Except String SState}
    (hrec : OrdSpec g rec) :
    ∀ (outs inStack1 : List Nat) (st : SState) (r : Bool) (st2 : SState) (r2 : Bool),
      searchOuts rec outs inStack1 st r = .ok (st2, r2) →
      (∀ x ∈ st.order, reachesOutput g x) →
      (∀ x ∈ st2.order, reachesOutput g x) ∧
      (r2 = true → r = true ∨ ∃ o ∈ outs, reachesOutput g o) := by
  intro outs
  induction outs with
  | nil =>
    intro inStack1 st r st2 r2 h hord
    simp only [searchOuts] at h
    cases h
    exact ⟨hord, fun hr => Or.inl hr⟩
  | cons out outs ih =>
    intro inStack1 st r st2 r2 h hord
    simp only [searchOuts] at h
    by_cases hstk : out ∈ inStack1
    · rw [if_pos hstk] at h
      cases h
    rw [if_neg hstk] at h
    by_cases hv : out ∈ st.visited
    · rw [if_pos hv] at h
      obtain ⟨h1, h2⟩ := ih inStack1 st _ st2 r2 h hord
      refine ⟨h1, ?_⟩
      intro hr2
      rcases h2 hr2 with hr | ⟨o, ho, hro⟩
      · rcases Bool.or_eq_true_iff.mp hr with hr | hr
        · exact Or.inl hr
        · exact Or.inr ⟨out, List.mem_cons_self _ _, hord out (of_decide_eq_true hr)⟩
      · exact Or.inr ⟨o, List.mem_cons_of_mem _ ho, hro⟩
    · rw [if_neg hv] at h
      cases hres : rec out inStack1 st with
      | error e2 => rw [hres] at h; cases h
      | ok stm =>
        rw [hres] at h
        have hordm : ∀ x ∈ stm.order, reachesOutput g x :=
          hrec out inStack1 st stm hres hord
        obtain ⟨h1, h2⟩ := ih inStack1 stm _ st2 r2 h hordm
        refine ⟨h1, ?_⟩
        intro hr2
        rcases h2 hr2 with hr | ⟨o, ho, hro⟩
        · rcases Bool.or_eq_true_iff.mp hr with hr | hr
          · exact Or.inl hr
          · exact Or.inr ⟨out, List.mem_cons_self _ _, hordm out (of_decide_eq_true hr)⟩
        · exact Or.inr ⟨o, List.mem_cons_of_mem _ ho, hro⟩

theorem searchBlocks_ord {g : GraphE} {rec : Nat → List Nat → SState → Except String SState}
    (hrec : OrdSpec g rec) :
    ∀ (bs inStack1 : List Nat) (st : SState) (r : Bool) (st2 : SState) (r2 : Bool),
      searchBlocks g rec bs inStack1 st r = .ok (st2, r2) →
      (∀ x ∈ st.order, reachesOutput g x) →
      (∀ x ∈ st2.order, reachesOutput g x) ∧
      (r2 = true → r = true ∨
        ∃ b ∈ bs, ∃ o ∈ (g.blocks.getD b defaultBlock).outputs, reachesOutput g o) := by
  intro bs
  induction bs with
  | nil =>
    intro inStack1 st r st2 r2 h hord
    simp only [searchBlocks] at h
    cases h
    exact ⟨hord, fun hr => Or.inl hr⟩
  | cons b bs ih =>
    intro inStack1 st r st2 r2 h hord
    simp only [searchBlocks] at h
    cases hres : searchOuts rec (g.blocks.getD b defaultBlock).outputs inStack1 st r with
    | error e2 => rw [hres] at h; cases h
    | ok p =>
      obtain ⟨stm, rm⟩ := p
      rw [hres] at h
      obtain ⟨h1, h2⟩ := searchOuts_ord hrec _ inStack1 st r stm rm hres hord
      obtain ⟨h3, h4⟩ := ih inStack1 stm rm st2 r2 h h1
      refine ⟨h3, ?_⟩
      intro hr2
      rcases h4 hr2 with hr | ⟨a, ha, o, ho, hro⟩
      · rcases h2 hr with hr | ⟨o, ho, hro⟩
        · exact Or.inl hr
        · exact Or.inr ⟨b, List.mem_cons_self _ _, o, ho, hro⟩
      · exact Or.inr ⟨a, List.mem_cons_of_mem _ ha, o, ho, hro⟩

theorem ordSpec_all {g : GraphE} : ∀ fuel, OrdSpec g (searchNetwork g fuel) := by
  intro fuel
  induction fuel with
  | zero =>
    intro node inStack st st2 h _
    simp only [searchNetwork] at h
    cases h
  | succ fuel ih =>
    intro node inStack st st2 h hord
    simp only [searchNetwork] at h
    cases hres : searchBlocks g (searchNetwork g fuel) (outHypermodels g node)
        (node :: inStack) ⟨insertVisited node st.visited, st.order⟩
        (decide (node ∈ g.outputs)) with
    | error e2 => rw [hres] at h; cases h
    | ok p =>
      obtain ⟨stm, reached⟩ := p
      rw [hres] at h
      injection h with h
      subst h
      obtain ⟨h1, h2⟩ := searchBlocks_ord ih _ _ _ _ stm reached hres hord
      intro x hx0
      have hx : x ∈ (if reached = true then addNode node stm.order else stm.order) := hx0
      by_cases hr : reached = true
      · rw [if_pos hr] at hx
        unfold addNode at hx
        by_cases hmem : node ∈ stm.order
        · rw [if_pos hmem] at hx
          exact h1 x hx
        · rw [if_neg hmem] at hx
          rcases List.mem_append.mp hx with hx | hx
          · exact h1 x hx
          · rw [List.mem_singleton] at hx
            subst hx
            rcases h2 hr with hr0 | ⟨b, hb, o, ho, hro⟩
            · have : x ∈ g.outputs := of_decide_eq_true hr0
              exact ⟨x, this, Relation.ReflTransGen.refl⟩
            · obtain ⟨o2, ho2, hro2⟩ := hro
              exact ⟨o2, ho2, Relation.ReflTransGen.head ⟨b, hb, ho⟩ hro2⟩
      · rw [if_neg hr] at hx
        exact h1 x hx

theorem searchAll_cycle {g : GraphE} (hw : WFGraph g) :
    ∀ (roots order : List Nat),
      (∀ i ∈ roots, i < g.numNodes) →
      (∃ i ∈ roots, ∃ v, reaches g i v ∧ Relation.TransGen (hasEdge g) v v) →
      searchAll g roots order = .error "The network has a cycle." := by
  intro roots
  induction roots with
  | nil =>
    intro order _ hcyc
    obtain ⟨i, hi, _⟩ := hcyc
    cases hi
  | cons rt rs ih =>
    intro order hN hcyc
    simp only [searchAll]
    cases hres : searchNetwork g (searchFuel g) rt [] ⟨[], order⟩ with
    | error e =>
      rcases errSpec_all (g := g) (searchFuel g) rt [] ⟨[], order⟩ e hres with rfl | rfl
      · exact absurd hres (netFuel_all hw (searchFuel g) rt [] ⟨[], order⟩
          (hN rt (List.mem_cons_self _ _)) (by simp) ⟨List.nodup_nil, by simp⟩
          (by simp [searchFuel]))
      · rfl
    | ok st =>
      obtain ⟨i, hi, v, hrv, hcv⟩ := hcyc
      rcases List.mem_cons.mp hi with rfl | hi
      · exact absurd hcv (searchNetwork_root_acyclic hw
          (hN i (List.mem_cons_self _ _)) hres v hrv)
      · exact ih st.order (fun j hj => hN j (List.mem_cons_of_mem _ hj))
          ⟨i, hi, v, hrv, hcv⟩

theorem searchAll_ok {g : GraphE} (hw : WFGraph g) :
    ∀ (roots order : List Nat),
      (∀ i ∈ roots, i < g.numNodes) →
      (∀ i ∈ roots, ∀ v, reaches g i v → ¬ Relation.TransGen (hasEdge g) v v) →
      ∃ delta : List Nat, searchAll g roots order = .ok (order ++ delta) ∧
        ∀ x ∈ delta, ∃ i ∈ roots, reaches g i x := by
  intro roots
  induction roots with
  | nil =>
    intro order _ _
    exact ⟨[], by simp [searchAll], by simp⟩
  | cons rt rs ih =>
    intro order hN hacy
    simp only [searchAll]
    cases hres : searchNetwork g (searchFuel g) rt [] ⟨[], order⟩ with
    | error e =>
      exfalso
      rcases errSpec_all (g := g) (searchFuel g) rt [] ⟨[], order⟩ e hres with rfl | rfl
      · exact absurd hres (netFuel_all hw (searchFuel g) rt [] ⟨[], order⟩
          (hN rt (List.mem_cons_self _ _)) (by simp) ⟨List.nodup_nil, by simp⟩
          (by simp [searchFuel]))
      · obtain ⟨v, hrv, hcv⟩ := soundSpec_all (g := g) (searchFuel g) rt [] ⟨[], order⟩ rt
          (by simp) (by
            intro x hx
            rcases List.mem_cons.mp hx with rfl | hx
            · exact Relation.ReflTransGen.refl
            · cases hx) hres
        exact hacy rt (List.mem_cons_self _ _) v hrv hcv
    | ok st =>
      have hseg := netSpec_all hw (searchFuel g) rt [] ⟨[], order⟩ st
        (hN rt (List.mem_cons_self _ _)) (by simp) hres
      obtain ⟨L, dO, hiff, hnd, hfresh, hltL, hreach, hord, hdo, hfs, hvnd, hneed⟩ := hseg
      obtain ⟨d2, hok2, hd2⟩ := ih st.order
        (fun j hj => hN j (List.mem_cons_of_mem _ hj))
        (fun j hj => hacy j (List.mem_cons_of_mem _ hj))
      have hord2 : st.order = order ++ dO := hord
      refine ⟨dO ++ d2, ?_, ?_⟩
      · show searchAll g rs st.order = Except.ok (order ++ (dO ++ d2))
        rw [hok2, hord2, List.append_assoc]
      · intro x hx
        rcases List.mem_append.mp hx with hx | hx
        · obtain ⟨s, hs, hrs⟩ := hreach x (hdo x hx)
          exact ⟨rt, List.mem_cons_self _ _, hs ▸ hrs⟩
        · obtain ⟨i, hi, hri⟩ := hd2 x hx
          exact ⟨i, List.mem_cons_of_mem _ hi, hri⟩

theorem searchAll_ord {g : GraphE} :
    ∀ (roots order order2 : List Nat),
      searchAll g roots order = .ok order2 →
      (∀ x ∈ order, reachesOutput g x) →
      ∀ x ∈ order2, reachesOutput g x := by
  intro roots
  induction roots with
  | nil =>
    intro order order2 h hord
    simp only [searchAll] at h
    cases h
    exact hord
  | cons rt rs ih =>
    intro order order2 h hord
    simp only [searchAll] at h
    cases hres : searchNetwork g (searchFuel g) rt [] ⟨[], order⟩ with
    | error e => rw [hres] at h; cases h
    | ok st =>
      rw [hres] at h
      exact ih st.order order2 h
        (ordSpec_all (g := g) (searchFuel g) rt [] ⟨[], order⟩ st hres hord)

/-! ## C2: cycle detection (corrected: the error does not name the node) -/

/-- C2, amended: for every well-formed graph containing a directed cycle
reachable from a designated input Node, construction raises the cycle
`ValueError` — with the constant message `The network has a cycle.`, which
does not name the offending node — and does not produce a block order (the
whole construction is the error). -/
theorem c2_amended {g : GraphE} (hw : WFGraph g)
    (hcyc : ∃ i ∈ g.inputs, ∃ v, reaches g i v ∧ Relation.TransGen (hasEdge g) v v) :
    buildNetwork g = Except.error "The network has a cycle." := by
  have h := searchAll_cycle hw g.inputs [] (fun i hi => hw.2.2.1 i hi) hcyc
  unfold buildNetwork
  rw [h]

/-- Witness for C2 at the self-loop graph `gCycleA`. -/
theorem c2_amended_witness :
    WFGraph gCycleA ∧
    buildNetwork gCycleA = Except.error "The network has a cycle." :=
  ⟨by decide, c2_amended (by decide)
    ⟨0, by decide, 1, Relation.ReflTransGen.single (by decide),
      Relation.TransGen.single (by decide)⟩⟩

/-! ## C9: the visited set is fresh per root (corrected) -/

/-- C9, amended: `_build_network` passes a FRESH empty `visited_nodes` set to
the traversal of each designated input (so a node processed from one root IS
traversed again from another root that reaches it, as `c9_counterexample`
shows); within a single root call, each node's DFS body runs at most once:
the set of nodes entered is a duplicate-free list `L`, and the call's final
visited set is exactly `L` (every entered node is reachable from the
root). -/
theorem c9_amended {g : GraphE} (hw : WFGraph g) {i : Nat} {order : List Nat}
    {st2 : SState} (hi : i < g.numNodes)
    (hok : searchNetwork g (searchFuel g) i [] ⟨[], order⟩ = .ok st2) :
    ∃ L : List Nat, L.Nodup ∧ (∀ x, x ∈ st2.visited ↔ x ∈ L) ∧ i ∈ L ∧
      ∀ x ∈ L, reaches g i x := by
  have hseg := netSpec_all hw (searchFuel g) i [] ⟨[], order⟩ st2 hi (by simp) hok
  obtain ⟨L, dO, hiff, hnd, hfresh, hltL, hreach, hord, hdo, hfs, hvnd, hneed⟩ := hseg
  refine ⟨L, hnd, ?_, hneed i (List.mem_cons_self _ _), ?_⟩
  · intro x
    rw [hiff x]
    simp
  · intro x hx
    obtain ⟨s, hs, hrs⟩ := hreach x hx
    exact hs ▸ hrs

/-- Witness for C9 at `gShared`, root `0`. -/
theorem c9_amended_witness :
    WFGraph gShared ∧ (0 : Nat) < gShared.numNodes ∧
    ∃ L : List Nat, L.Nodup ∧
      (∀ x, x ∈ (⟨[3, 2, 0], [3, 2, 0]⟩ : SState).visited ↔ x ∈ L) ∧
      (0 : Nat) ∈ L ∧ ∀ x ∈ L, reaches gShared 0 x :=
  ⟨by decide, by decide, c9_amended (g := gShared) (by decide) (by decide)
    (show searchNetwork gShared (searchFuel gShared) 0 [] ⟨[], []⟩ =
      Except.ok ⟨[3, 2, 0], [3, 2, 0]⟩ from rfl)⟩

/-! ## C3: disconnected inputs or outputs (corrected: a reachable cycle
preempts the disconnected error) -/

/-- C3, amended: for every well-formed graph WITHOUT a cycle reachable from
a designated input, if some designated output is reached by no designated
input, or some designated input reaches no designated output, construction
raises the disconnected `ValueError` after discovery (before the block
ordering, so no schedule is produced). -/
theorem c3_amended {g : GraphE} (hw : WFGraph g)
    (hacy : ¬ ∃ i ∈ g.inputs, ∃ v, reaches g i v ∧ Relation.TransGen (hasEdge g) v v)
    (hdisc : (∃ o ∈ g.outputs, ∀ i ∈ g.inputs, ¬ reaches g i o) ∨
             (∃ i ∈ g.inputs, ∀ o ∈ g.outputs, ¬ reaches g i o)) :
    buildNetwork g = Except.error "Inputs and outputs not connected." := by
  have hacy2 : ∀ i ∈ g.inputs, ∀ v, reaches g i v →
      ¬ Relation.TransGen (hasEdge g) v v := by
    intro i hi v hrv hc
    exact hacy ⟨i, hi, v, hrv, hc⟩
  obtain ⟨delta, hok, hd⟩ := searchAll_ok hw g.inputs []
    (fun i hi => hw.2.2.1 i hi) hacy2
  have hordOut : ∀ x ∈ ([] ++ delta : List Nat), reachesOutput g x :=
    searchAll_ord g.inputs [] _ hok (by simp)
  have hmiss : ∃ n ∈ g.inputs ++ g.outputs, n ∉ ([] ++ delta : List Nat) := by
    rcases hdisc with ⟨o, ho, hno⟩ | ⟨i, hi, hno⟩
    · refine ⟨o, List.mem_append.mpr (Or.inr ho), ?_⟩
      intro hmem
      rw [List.nil_append] at hmem
      obtain ⟨i, hi, hri⟩ := hd o hmem
      exact hno i hi hri
    · refine ⟨i, List.mem_append.mpr (Or.inl hi), ?_⟩
      intro hmem
      obtain ⟨o, ho, hio⟩ := hordOut i hmem
      exact hno o ho hio
  have hcc : connectivityCheck g ([] ++ delta) =
      .error "Inputs and outputs not connected." := by
    unfold connectivityCheck
    rw [if_neg]
    intro hall
    obtain ⟨n, hn, hnn⟩ := hmiss
    rw [List.all_eq_true] at hall
    exact hnn (of_decide_eq_true (hall n hn))
  unfold buildNetwork
  rw [hok]
  show (match connectivityCheck g ([] ++ delta) with
    | .error e => Except.error e
    | .ok _ => _) = _
  rw [hcc]

/-- Witness for C3 at the orphan-output graph `gDisc`. -/
theorem c3_amended_witness :
    WFGraph gDisc ∧
    buildNetwork gDisc = Except.error "Inputs and outputs not connected." := by
  have hchar : ∀ u v, hasEdge gDisc u v → u = 0 ∧ v = 1 := by
    intro u v h
    obtain ⟨b, hb, hv⟩ := h
    rw [mem_outHypermodels] at hb
    obtain ⟨hblen, hbin⟩ := hb
    have hb0 : b = 0 := by
      simp [gDisc] at hblen
      omega
    subst hb0
    constructor
    · simpa [gDisc, defaultBlock] using hbin
    · simpa [gDisc, defaultBlock] using hv
  refine ⟨by decide, c3_amended (by decide) ?_ ?_⟩
  · rintro ⟨i, hi, v, hrv, hcv⟩
    refine no_cycle_of_rank (g := gDisc) (fun n => if n = 0 then 1 else 0) ?_ v hcv
    intro u w h
    obtain ⟨rfl, rfl⟩ := hchar u w h
    simp
  · refine Or.inl ⟨2, by decide, ?_⟩
    intro i hi
    have hi0 : i = 0 := by
      have : i ∈ ([0] : List Nat) := hi
      simpa using this
    subst hi0
    exact not_reaches_of_closed (S := [0, 1]) (by decide) (by decide) (by decide)

theorem mem_addNode {n x : Nat} {order : List Nat} :
    x ∈ addNode n order ↔ x = n ∨ x ∈ order := by
  unfold addNode
  by_cases h : n ∈ order
  · rw [if_pos h]
    constructor
    · exact Or.inr
    · rintro (rfl | hx)
      · exact h
      · exact hx
  · rw [if_neg h]
    simp [List.mem_append, or_comm]

theorem mem_foldl_addNode {outs : List Nat} :
    ∀ {order : List Nat} {x : Nat},
      x ∈ outs.foldl (fun o n => addNode n o) order ↔ x ∈ order ∨ x ∈ outs := by
  induction outs with
  | nil => simp
  | cons o os ih =>
    intro order x
    simp only [List.foldl_cons]
    rw [ih, mem_addNode]
    simp [List.mem_cons]
    tauto

theorem enqueueOuts_order {outs : List Nat} :
    ∀ {st : BState}, (enqueueOuts outs st).order = st.order := by
  induction outs with
  | nil => intro st; rfl
  | cons o os ih =>
    intro st
    unfold enqueueOuts
    by_cases h : o ∉ st.visitedB ∧ o ∈ st.order
    · rw [if_pos h]
      exact ih
    · rw [if_neg h]
      exact ih

theorem enqueueOuts_hms {outs : List Nat} :
    ∀ {st : BState}, (enqueueOuts outs st).hms = st.hms := by
  induction outs with
  | nil => intro st; rfl
  | cons o os ih =>
    intro st
    unfold enqueueOuts
    by_cases h : o ∉ st.visitedB ∧ o ∈ st.order
    · rw [if_pos h]
      exact ih
    · rw [if_neg h]
      exact ih

theorem enqueueOuts_visited_sub {outs : List Nat} :
    ∀ {st : BState} {x : Nat}, x ∈ st.visitedB → x ∈ (enqueueOuts outs st).visitedB := by
  induction outs with
  | nil => intro st x hx; exact hx
  | cons o os ih =>
    intro st x hx
    unfold enqueueOuts
    by_cases h : o ∉ st.visitedB ∧ o ∈ st.order
    · rw [if_pos h]
      exact ih (List.mem_cons_of_mem _ hx)
    · rw [if_neg h]
      exact ih hx

theorem enqueueOuts_covers {outs : List Nat} :
    ∀ {st : BState} {o : Nat}, o ∈ outs → o ∈ st.order →
      o ∈ (enqueueOuts outs st).visitedB := by
  induction outs with
  | nil => intro st o ho; cases ho
  | cons o2 os ih =>
    intro st o ho hord
    unfold enqueueOuts
    rcases List.mem_cons.mp ho with rfl | ho
    · by_cases h : o ∉ st.visitedB ∧ o ∈ st.order
      · rw [if_pos h]
        exact enqueueOuts_visited_sub (List.mem_cons_self _ _)
      · rw [if_neg h]
        rcases not_and_or.mp h with h | h
        · exact enqueueOuts_visited_sub (not_not.mp h)
        · exact absurd hord h
    · by_cases h : o2 ∉ st.visitedB ∧ o2 ∈ st.order
      · rw [if_pos h]
        exact ih ho hord
      · rw [if_neg h]
        exact ih ho hord

theorem enqueueOuts_queue_sub {outs : List Nat} :
    ∀ {st : BState} {x : Nat}, x ∈ st.queue → x ∈ (enqueueOuts outs st).queue := by
  induction outs with
  | nil => intro st x hx; exact hx
  | cons o os ih =>
    intro st x hx
    unfold enqueueOuts
    by_cases h : o ∉ st.visitedB ∧ o ∈ st.order
    · rw [if_pos h]
      exact ih (List.mem_append.mpr (Or.inl hx))
    · rw [if_neg h]
      exact ih hx

theorem enqueueOuts_newvisited {outs : List Nat} :
    ∀ {st : BState} {x : Nat},
      x ∈ (enqueueOuts outs st).visitedB →
      x ∈ st.visitedB ∨ x ∈ (enqueueOuts outs st).queue := by
  induction outs with
  | nil => intro st x hx; exact Or.inl hx
  | cons o os ih =>
    intro st x hx
    unfold enqueueOuts at hx ⊢
    by_cases h : o ∉ st.visitedB ∧ o ∈ st.order
    · rw [if_pos h] at hx ⊢
      rcases ih hx with hx2 | hx2
      · rcases List.mem_cons.mp hx2 with rfl | hx2
        · exact Or.inr (enqueueOuts_queue_sub (List.mem_append.mpr
            (Or.inr (List.mem_singleton_self _))))
        · exact Or.inl hx2
      · exact Or.inr hx2
    · rw [if_neg h] at hx ⊢
      exact ih hx

theorem addHypermodel_inversion {g : GraphE} {b : Nat} {st st2 : BState}
    (h : addHypermodel g b st = .ok st2) :
    st2.queue = st.queue ∧ st2.visitedB = st.visitedB ∧
    st2.order = (g.blocks.getD b defaultBlock).outputs.foldl
      (fun o n => addNode n o) st.order ∧
    st2.hms = (if b ∈ st.hms then st.hms else st.hms ++ [b]) ∧
    (∀ n ∈ (g.blocks.getD b defaultBlock).inputs, n ∈ st2.order) := by
  unfold addHypermodel at h
  by_cases hall : ((g.blocks.getD b defaultBlock).inputs.all
      (fun n => decide (n ∈ (g.blocks.getD b defaultBlock).outputs.foldl
        (fun o n => addNode n o) st.order))) = true
  · rw [if_pos hall] at h
    injection h with h
    subst h
    refine ⟨rfl, rfl, rfl, rfl, ?_⟩
    intro n hn
    rw [List.all_eq_true] at hall
    exact of_decide_eq_true (hall n hn)
  · rw [if_neg hall] at h
    cases h

theorem processBlocks_inv {g : GraphE} {disc : List Nat} (hw : WFGraph g) :
    ∀ (bs : List Nat) (st st2 : BState),
      (∀ b ∈ bs, b < g.blocks.length) →
      processBlocks g bs st = .ok st2 →
      BfsInv g disc st →
      BfsInv g disc st2 ∧
      (∀ x ∈ st.order, x ∈ st2.order) ∧
      (∀ x ∈ st.visitedB, x ∈ st2.visitedB) ∧
      (∀ b ∈ st.hms, b ∈ st2.hms) ∧
      (∀ x ∈ st.queue, x ∈ st2.queue) := by
  intro bs
  induction bs with
  | nil =>
    intro st st2 _ h hinv
    simp only [processBlocks] at h
    cases h
    exact ⟨hinv, fun x hx => hx, fun x hx => hx, fun b hb => hb, fun x hx => hx⟩
  | cons b bs ih =>
    intro st st2 hbs h hinv
    simp only [processBlocks] at h
    by_cases hany : ((g.blocks.getD b defaultBlock).outputs.any
        (fun o => decide (o ∈ st.order))) = true
    · rw [if_pos hany] at h
      cases hres : addHypermodel g b st with
      | error e => rw [hres] at h; cases h
      | ok stm =>
        rw [hres] at h
        obtain ⟨hq, hv, hord, hhms, hins⟩ := addHypermodel_inversion hres
        set ste := enqueueOuts (g.blocks.getD b defaultBlock).outputs stm with hste
        have hinv2 : BfsInv g disc ste := by
          obtain ⟨i1, i2, i3, i4, i5, i6, i7⟩ := hinv
          have horde : ste.order = stm.order := enqueueOuts_order
          have hhmse : ste.hms = stm.hms := enqueueOuts_hms
          refine ⟨?_, ?_, ?_, ?_, ?_, ?_, ?_⟩
          · rw [hhmse, hhms]
            by_cases hmem : b ∈ st.hms
            · rw [if_pos hmem]; exact i1
            · rw [if_neg hmem]
              rw [List.nodup_append]
              exact ⟨i1, List.nodup_singleton _, by
                intro x hx hx2
                rw [List.mem_singleton] at hx2
                subst hx2
                exact hmem hx⟩
          · rw [hhmse, hhms]
            intro a ha
            by_cases hmem : b ∈ st.hms
            · rw [if_pos hmem] at ha
              exact i2 a ha
            · rw [if_neg hmem] at ha
              rcases List.mem_append.mp ha with ha | ha
              · exact i2 a ha
              · rw [List.mem_singleton] at ha
                subst ha
                exact hbs a (List.mem_cons_self _ _)
          · rw [hhmse, hhms, horde, hord]
            intro a ha n hn
            by_cases hmem : b ∈ st.hms
            · rw [if_pos hmem] at ha
              exact mem_foldl_addNode.mpr (Or.inl (i3 a ha n hn))
            · rw [if_neg hmem] at ha
              rcases List.mem_append.mp ha with ha | ha
              · exact mem_foldl_addNode.mpr (Or.inl (i3 a ha n hn))
              · rw [List.mem_singleton] at ha
                subst ha
                rw [← hord]
                exact hins n hn
          · rw [hhmse, hhms, horde, hord]
            intro x hx
            rcases mem_foldl_addNode.mp hx with hx | hx
            · rcases i4 x hx with hx | ⟨a, ha, hout⟩
              · exact Or.inl hx
              · refine Or.inr ⟨a, ?_, hout⟩
                by_cases hmem : b ∈ st.hms
                · rw [if_pos hmem]; exact ha
                · rw [if_neg hmem]
                  exact List.mem_append.mpr (Or.inl ha)
            · refine Or.inr ⟨b, ?_, hx⟩
              by_cases hmem : b ∈ st.hms
              · rw [if_pos hmem]; exact hmem
              · rw [if_neg hmem]
                exact List.mem_append.mpr (Or.inr (List.mem_singleton_self _))
          · rw [hhmse, hhms]
            intro a ha out hout
            by_cases hmem : b ∈ st.hms
            · rw [if_pos hmem] at ha
              exact enqueueOuts_visited_sub (hv ▸ i5 a ha out hout)
            · rw [if_neg hmem] at ha
              rcases List.mem_append.mp ha with ha | ha
              · exact enqueueOuts_visited_sub (hv ▸ i5 a ha out hout)
              · rw [List.mem_singleton] at ha
                subst ha
                refine enqueueOuts_covers hout ?_
                rw [hord]
                exact mem_foldl_addNode.mpr (Or.inr hout)
          · rw [hhmse, hhms]
            intro a ha
            by_cases hmem : b ∈ st.hms
            · rw [if_pos hmem] at ha
              exact i6 a ha
            · rw [if_neg hmem] at ha
              rcases List.mem_append.mp ha with ha | ha
              · exact i6 a ha
              · rw [List.mem_singleton] at ha
                subst ha
                rw [List.any_eq_true] at hany
                obtain ⟨o, ho, hoo⟩ := hany
                have hoord : o ∈ st.order := of_decide_eq_true hoo
                rcases i4 o hoord with hdisc2 | ⟨a2, ha2, hout2⟩
                · exact ⟨o, ho, hdisc2⟩
                · exfalso
                  by_cases heq : a = a2
                  · subst heq
                    exact hmem ha2
                  · exact hw.2.2.2.2.2.1 a (List.mem_range.mpr
                      (hbs a (List.mem_cons_self _ _))) a2 (List.mem_range.mpr
                      (i2 a2 ha2)) heq o ho hout2
          · rw [horde, hord]
            intro x hx
            exact mem_foldl_addNode.mpr (Or.inl (i7 x hx))
        obtain ⟨hinv3, hords, hvs, hhs, hqs⟩ := ih ste st2
          (fun a ha => hbs a (List.mem_cons_of_mem _ ha)) h hinv2
        refine ⟨hinv3, ?_, ?_, ?_, ?_⟩
        · intro x hx
          refine hords x ?_
          rw [hste, enqueueOuts_order, hord]
          exact mem_foldl_addNode.mpr (Or.inl hx)
        · intro x hx
          exact hvs x (enqueueOuts_visited_sub (hv ▸ hx))
        · intro a ha
          refine hhs a ?_
          rw [hste, enqueueOuts_hms, hhms]
          by_cases hmem : b ∈ st.hms
          · rw [if_pos hmem]; exact ha
          · rw [if_neg hmem]
            exact List.mem_append.mpr (Or.inl ha)
        · intro x hx
          exact hqs x (enqueueOuts_queue_sub (hq ▸ hx))
    · rw [if_neg hany] at h
      exact ih st st2 (fun a ha => hbs a (List.mem_cons_of_mem _ ha)) h hinv

theorem bfsLoop_inv {g : GraphE} {disc : List Nat} (hw : WFGraph g) :
    ∀ (fuel : Nat) (st : BState) (orderF hmsF : List Nat),
      bfsLoop g fuel st = .ok (orderF, hmsF) →
      BfsInv g disc st →
      (hmsF.Nodup ∧
       (∀ b ∈ hmsF, b < g.blocks.length) ∧
       (∀ b ∈ hmsF, ∀ n ∈ (g.blocks.getD b defaultBlock).inputs, n ∈ orderF) ∧
       (∀ x ∈ orderF, x ∈ disc ∨
         ∃ b ∈ hmsF, x ∈ (g.blocks.getD b defaultBlock).outputs) ∧
       (∀ b ∈ hmsF, ∃ m ∈ (g.blocks.getD b defaultBlock).outputs, m ∈ disc) ∧
       (∀ x ∈ disc, x ∈ orderF)) ∧
      (∀ x ∈ st.order, x ∈ orderF) ∧
      (∀ b ∈ st.hms, b ∈ hmsF) := by
  intro fuel
  induction fuel with
  | zero =>
    intro st orderF hmsF h
    simp only [bfsLoop] at h
    cases h
  | succ fuel ih =>
    intro st orderF hmsF h hinv
    obtain ⟨q, vB, ord, hms⟩ := st
    cases q with
    | nil =>
      simp only [bfsLoop] at h
      injection h with h
      injection h with h1 h2
      subst h1
      subst h2
      obtain ⟨i1, i2, i3, i4, i5, i6, i7⟩ := hinv
      exact ⟨⟨i1, i2, i3, i4, i6, i7⟩, fun x hx => hx, fun b hb => hb⟩
    | cons n rest =>
      simp only [bfsLoop] at h
      cases hres : processBlocks g (outHypermodels g n) ⟨rest, vB, ord, hms⟩ with
      | error e => rw [hres] at h; cases h
      | ok stm =>
        rw [hres] at h
        have hinv0 : BfsInv g disc ⟨rest, vB, ord, hms⟩ := hinv
        obtain ⟨hinv2, hords, hvs, hhs, hqs⟩ := processBlocks_inv hw
          (outHypermodels g n) _ stm
          (fun b hb => (mem_outHypermodels.mp hb).1) hres hinv0
        obtain ⟨hfin, hords2, hhs2⟩ := ih stm orderF hmsF h hinv2
        exact ⟨hfin, fun x hx => hords2 x (hords x hx),
          fun b hb => hhs2 b (hhs b hb)⟩

theorem buildNetwork_inversion {g : GraphE} {r : BuildOut}
    (h : buildNetwork g = .ok r) :
    searchAll g g.inputs [] = .ok r.nodes ∧
    connectivityCheck g r.nodes = .ok () ∧
    bfsLoop g (bfsFuel g)
      ⟨g.inputs, g.inputs.foldl (fun v n => insertVisited n v) [], r.nodes, []⟩ =
      .ok (r.nodeToId, r.hms) ∧
    finalizeShapes g g.outputs [] = .ok r.shapeMap := by
  unfold buildNetwork at h
  cases h1 : searchAll g g.inputs [] with
  | error e => rw [h1] at h; cases h
  | ok disc =>
    simp only [h1] at h
    cases h2 : connectivityCheck g disc with
    | error e => simp only [h2] at h; cases h
    | ok u =>
      simp only [h2] at h
      cases h3 : bfsLoop g (bfsFuel g)
          ⟨g.inputs, g.inputs.foldl (fun v n => insertVisited n v) [], disc, []⟩ with
      | error e => simp only [h3] at h; cases h
      | ok p =>
        obtain ⟨orderF, hmsF⟩ := p
        simp only [h3] at h
        cases h4 : finalizeShapes g g.outputs [] with
        | error e => simp only [h4] at h; cases h
        | ok m =>
          simp only [h4] at h
          injection h with h
          subst h
          cases u
          exact ⟨rfl, h2, h3, rfl⟩

theorem searchAll_reach {g : GraphE} (hw : WFGraph g) :
    ∀ (roots order order2 : List Nat),
      (∀ i ∈ roots, i < g.numNodes) →
      searchAll g roots order = .ok order2 →
      ∀ x ∈ order2, x ∈ order ∨
        ((∃ i ∈ roots, reaches g i x) ∧ x < g.numNodes) := by
  intro roots
  induction roots with
  | nil =>
    intro order order2 _ h x hx
    simp only [searchAll] at h
    cases h
    exact Or.inl hx
  | cons rt rs ih =>
    intro order order2 hN h x hx
    simp only [searchAll] at h
    cases hres : searchNetwork g (searchFuel g) rt [] ⟨[], order⟩ with
    | error e => rw [hres] at h; cases h
    | ok st =>
      rw [hres] at h
      have hseg := netSpec_all hw (searchFuel g) rt [] ⟨[], order⟩ st
        (hN rt (List.mem_cons_self _ _)) (by simp) hres
      obtain ⟨L, dO, hiff, hnd, hfresh, hltL, hreach, hord, hdo, hfs, hvnd, hneed⟩ := hseg
      rcases ih st.order order2 (fun j hj => hN j (List.mem_cons_of_mem _ hj)) h x hx with
        hx2 | ⟨⟨i, hi, hri⟩, hxN⟩
      · rw [show st.order = order ++ dO from hord] at hx2
        rcases List.mem_append.mp hx2 with hx2 | hx2
        · exact Or.inl hx2
        · have hxL := hdo x hx2
          obtain ⟨s, hs, hrs⟩ := hreach x hxL
          exact Or.inr ⟨⟨rt, List.mem_cons_self _ _, hs ▸ hrs⟩, hltL x hxL⟩
      · exact Or.inr ⟨⟨i, List.mem_cons_of_mem _ hi, hri⟩, hxN⟩

/-! ## C1: topological soundness (corrected: a value lookup can fail) -/

/-- C1, amended: for every well-formed graph on which construction succeeds,
every input Node of every Block in the produced order has an integer id
assigned in `_node_to_id` (so the id lookup `self._node_to_id[input_node]`
in `build` never fails); but the concrete-VALUE lookup can fail, because a
Block may be scheduled before the Block producing one of its inputs —
`c1_counterexample` exhibits a valid graph where materialization raises
`KeyError`. -/
theorem c1_amended {g : GraphE} {r : BuildOut} (hw : WFGraph g)
    (h : buildNetwork g = .ok r) :
    ∀ b ∈ r.hms, ∀ n ∈ (g.blocks.getD b defaultBlock).inputs, n ∈ r.nodeToId := by
  obtain ⟨h1, h2, h3, h4⟩ := buildNetwork_inversion h
  have hinv0 : BfsInv g r.nodes
      ⟨g.inputs, g.inputs.foldl (fun v n => insertVisited n v) [], r.nodes, []⟩ := by
    refine ⟨List.nodup_nil, ?_, ?_, ?_, ?_, ?_, ?_⟩ <;> simp
  obtain ⟨⟨f1, f2, f3, f4, f5, f6⟩, _, _⟩ := bfsLoop_inv hw (bfsFuel g) _ _ _ h3 hinv0
  exact f3

/-- Witness for the amended C1 at `gMulti`. -/
theorem c1_amended_witness :
    WFGraph gMulti ∧
    ∀ b ∈ gMultiRes.hms, ∀ n ∈ (gMulti.blocks.getD b defaultBlock).inputs,
      n ∈ gMultiRes.nodeToId :=
  ⟨by decide, c1_amended (by decide) rfl⟩

/-! ## C5: minimality (corrected: off-path output nodes can receive ids) -/

/-- C5, amended: for every well-formed graph on which construction succeeds,
a Block is registered in the block order only if one of its output Nodes
lies on a path from a designated input to a designated output, and every
Node in the discovery snapshot `self._nodes` lies on such a path (so no
off-path Block is ever built); however an off-path output Node of an on-path
Block DOES receive an integer id during block ordering
(`c5_counterexample`). -/
theorem c5_amended {g : GraphE} {r : BuildOut} (hw : WFGraph g)
    (h : buildNetwork g = .ok r) :
    (∀ b ∈ r.hms, ∃ m ∈ (g.blocks.getD b defaultBlock).outputs,
      reachedFromInput g m ∧ reachesOutput g m) ∧
    (∀ n ∈ r.nodes, reachedFromInput g n ∧ reachesOutput g n) := by
  obtain ⟨h1, h2, h3, h4⟩ := buildNetwork_inversion h
  have hdisc : ∀ n ∈ r.nodes, reachedFromInput g n ∧ reachesOutput g n := by
    intro n hn
    rcases searchAll_reach hw g.inputs [] r.nodes
        (fun i hi => hw.2.2.1 i hi) h1 n hn with hx | ⟨⟨i, hi, hri⟩, _⟩
    · cases hx
    · exact ⟨⟨i, hi, hri⟩, searchAll_ord g.inputs [] r.nodes h1 (by simp) n hn⟩
  refine ⟨?_, hdisc⟩
  have hinv0 : BfsInv g r.nodes
      ⟨g.inputs, g.inputs.foldl (fun v n => insertVisited n v) [], r.nodes, []⟩ := by
    refine ⟨List.nodup_nil, ?_, ?_, ?_, ?_, ?_, ?_⟩ <;> simp
  obtain ⟨⟨f1, f2, f3, f4, f5, f6⟩, _, _⟩ := bfsLoop_inv hw (bfsFuel g) _ _ _ h3 hinv0
  intro b hb
  obtain ⟨m, hm, hmd⟩ := f5 b hb
  exact ⟨m, hm, hdisc m hmd⟩

/-- Witness for the amended C5 at `gDangling`. -/
theorem c5_amended_witness :
    WFGraph gDangling ∧
    (∀ b ∈ gDanglingRes.hms, ∃ m ∈ (gDangling.blocks.getD b defaultBlock).outputs,
      reachedFromInput gDangling m ∧ reachesOutput gDangling m) ∧
    (∀ n ∈ gDanglingRes.nodes,
      reachedFromInput gDangling n ∧ reachesOutput gDangling n) := by
  refine ⟨by decide, ?_, ?_⟩
  · exact (c5_amended (g := gDangling) (r := gDanglingRes) (by decide) rfl).1
  · exact (c5_amended (g := gDangling) (r := gDanglingRes) (by decide) rfl).2

theorem setShape_same {m : List (Nat × Nat)} {b s : Nat} :
    lookupShape (setShape m b s) b = some s := by
  simp [setShape, lookupShape]

theorem setShape_other {m : List (Nat × Nat)} {b b2 s : Nat} (hne : b2 ≠ b) :
    lookupShape (setShape m b s) b2 = lookupShape m b2 := by
  unfold setShape
  show lookupShape ((b, s) :: m.filter (fun p => p.1 ≠ b)) b2 = lookupShape m b2
  rw [show lookupShape ((b, s) :: m.filter (fun p => p.1 ≠ b)) b2 =
    if (b, s).1 = b2 then some (b, s).2
    else lookupShape (m.filter (fun p => p.1 ≠ b)) b2 from rfl]
  rw [if_neg (by simpa using Ne.symm hne)]
  induction m with
  | nil => rfl
  | cons p ps ih =>
    by_cases hp : p.1 = b
    · rw [List.filter_cons_of_neg (by simp [hp])]
      rw [show lookupShape (p :: ps) b2 =
        if p.1 = b2 then some p.2 else lookupShape ps b2 from rfl]
      rw [if_neg (by rw [hp]; exact Ne.symm hne)]
      exact ih
    · rw [List.filter_cons_of_pos (by simp [hp])]
      rw [show lookupShape (p :: ps.filter (fun p => p.1 ≠ b)) b2 =
        if p.1 = b2 then some p.2 else lookupShape (ps.filter (fun p => p.1 ≠ b)) b2
        from rfl]
      rw [show lookupShape (p :: ps) b2 =
        if p.1 = b2 then some p.2 else lookupShape ps b2 from rfl]
      by_cases hp2 : p.1 = b2
      · rw [if_pos hp2, if_pos hp2]
      · rw [if_neg hp2, if_neg hp2]
        exact ih

theorem finalizeShapes_lookup {g : GraphE} :
    ∀ (os : List Nat) (m m2 : List (Nat × Nat)) (b : Nat),
      finalizeShapes g os m = .ok m2 →
      lookupShape m2 b =
        (match (os.filter (fun o => decide (producerOf g o = some b))).getLast? with
         | some o => some (g.shapes o)
         | none => lookupShape m b) := by
  intro os
  induction os with
  | nil =>
    intro m m2 b h
    simp only [finalizeShapes] at h
    cases h
    rfl
  | cons o os ih =>
    intro m m2 b h
    simp only [finalizeShapes] at h
    cases hin : inHypermodels g o with
    | nil => rw [hin] at h; cases h
    | cons bh rest =>
      rw [hin] at h
      have hih := ih (setShape m bh (g.shapes o)) m2 b h
      by_cases hmatch : producerOf g o = some b
      · have hbh : bh = b := by
          simp [producerOf, hin] at hmatch
          exact hmatch
        subst hbh
        rw [List.filter_cons_of_pos (by simp [hmatch])]
        cases hL : (os.filter (fun o => decide (producerOf g o = some bh))).getLast? with
        | none =>
          have hnil : os.filter (fun o => decide (producerOf g o = some bh)) = [] :=
            List.getLast?_eq_none_iff.mp hL
          rw [hnil]
          rw [hih, hL]
          simp [setShape_same]
        | some olast =>
          have hnenil : os.filter (fun o => decide (producerOf g o = some bh)) ≠ [] := by
            intro hc
            rw [hc] at hL
            cases hL
          obtain ⟨x, xs, hxs⟩ := List.exists_cons_of_ne_nil hnenil
          rw [hxs]
          rw [List.getLast?_cons_cons]
          rw [hih, hL, ← hxs, hL]
      · rw [List.filter_cons_of_neg (by simp [hmatch])]
        rw [hih]
        cases hL : (os.filter (fun o => decide (producerOf g o = some b))).getLast? with
        | none =>
          have hbh : bh ≠ b := by
            intro hc
            exact hmatch (by simp [producerOf, hin, hc])
          exact setShape_other (Ne.symm hbh)
        | some olast => rfl

/-! ## C8: output-shape finalization (corrected: the last designated output
sharing a producer wins) -/

/-- C8, amended: after construction succeeds, the declared output shape of a
block is the shape of the LAST designated output node it produces (in
`self.outputs` list order) — finalization performs one assignment per
designated output in order, so when several designated outputs share a
producer the later assignment overwrites the earlier one
(`c8_counterexample`); a block producing no designated output keeps no
declared shape. -/
theorem c8_amended {g : GraphE} {r : BuildOut} (h : buildNetwork g = .ok r) :
    ∀ b : Nat,
      lookupShape r.shapeMap b =
        ((g.outputs.filter
          (fun o => decide (producerOf g o = some b))).getLast?).map
          (fun o => g.shapes o) := by
  obtain ⟨_, _, _, h4⟩ := buildNetwork_inversion h
  intro b
  rw [finalizeShapes_lookup g.outputs [] r.shapeMap b h4]
  cases hL : (g.outputs.filter (fun o => decide (producerOf g o = some b))).getLast? with
  | none => rfl
  | some olast => rfl

/-- Witness for the amended C8 at `gTwoOut`, block `0`. -/
theorem c8_amended_witness :
    lookupShape gTwoOutRes.shapeMap 0 =
      ((gTwoOut.outputs.filter
        (fun o => decide (producerOf gTwoOut o = some 0))).getLast?).map
        (fun o => gTwoOut.shapes o) :=
  c8_amended (g := gTwoOut) (r := gTwoOutRes) rfl 0

theorem searchOuts_comp {g : GraphE} {rec : Nat → List Nat → SState → Except String SState}
    (hrecN : NetSpec g rec) (hrecC : CompSpec g rec) :
    ∀ (outs inStack1 : List Nat) (st : SState) (r : Bool) (st2 : SState) (r2 : Bool),
      (∀ o ∈ outs, o < g.numNodes) →
      searchOuts rec outs inStack1 st r = .ok (st2, r2) →
      (∀ v, v ∈ st.visited → v ∉ inStack1 → reachesOutput g v → v ∈ st.order) →
      ((∀ v, v ∈ st2.visited → v ∉ inStack1 → reachesOutput g v → v ∈ st2.order) ∧
       (r = true → r2 = true) ∧
       (∀ out ∈ outs, reachesOutput g out → r2 = true)) := by
  intro outs
  induction outs with
  | nil =>
    intro inStack1 st r st2 r2 _ h hpre
    simp only [searchOuts] at h
    cases h
    exact ⟨hpre, fun hr => hr, fun o ho => absurd ho (List.not_mem_nil o)⟩
  | cons out outs ih =>
    intro inStack1 st r st2 r2 hN h hpre
    simp only [searchOuts] at h
    by_cases hstk : out ∈ inStack1
    · rw [if_pos hstk] at h
      cases h
    rw [if_neg hstk] at h
    by_cases hv : out ∈ st.visited
    · rw [if_pos hv] at h
      obtain ⟨hP, hrm, houts⟩ := ih inStack1 st _ st2 r2
        (fun o ho => hN o (List.mem_cons_of_mem _ ho)) h hpre
      refine ⟨hP, fun hr => hrm (by rw [hr]; rfl), ?_⟩
      intro o ho hro
      rcases List.mem_cons.mp ho with rfl | ho
      · have hoord : o ∈ st.order := hpre o hv hstk hro
        exact hrm (by simp [hoord])
      · exact houts o ho hro
    · rw [if_neg hv] at h
      cases hres : rec out inStack1 st with
      | error e => rw [hres] at h; cases h
      | ok stm =>
        rw [hres] at h
        have houtN : out < g.numNodes := hN out (List.mem_cons_self _ _)
        have hsubpre : ∀ v, v ∈ st.visited → v ∉ out :: inStack1 →
            reachesOutput g v → v ∈ st.order := by
          intro v hv2 hnstk hro
          exact hpre v hv2 (fun hc => hnstk (List.mem_cons_of_mem _ hc)) hro
        have hPm := hrecC out inStack1 st stm houtN hv hres hsubpre
        have hseg := hrecN out inStack1 st stm houtN hv hres
        obtain ⟨L, dO, hiff, _, _, _, _, hord, _, _, _, hneed⟩ := hseg
        have houtm : out ∈ stm.visited :=
          (hiff out).mpr (Or.inl (hneed out (List.mem_cons_self _ _)))
        obtain ⟨hP, hrm, houts⟩ := ih inStack1 stm _ st2 r2
          (fun o ho => hN o (List.mem_cons_of_mem _ ho)) h hPm
        refine ⟨hP, fun hr => hrm (by rw [hr]; rfl), ?_⟩
        intro o ho hro
        rcases List.mem_cons.mp ho with rfl | ho
        · have hoord : o ∈ stm.order := hPm o houtm hstk hro
          exact hrm (by simp [hoord])
        · exact houts o ho hro

theorem searchBlocks_comp {g : GraphE} {rec : Nat → List Nat → SState → Except String SState}
    (hrecN : NetSpec g rec) (hrecC : CompSpec g rec) :
    ∀ (bs inStack1 : List Nat) (st : SState) (r : Bool) (st2 : SState) (r2 : Bool),
      (∀ b ∈ bs, ∀ o ∈ (g.blocks.getD b defaultBlock).outputs, o < g.numNodes) →
      searchBlocks g rec bs inStack1 st r = .ok (st2, r2) →
      (∀ v, v ∈ st.visited → v ∉ inStack1 → reachesOutput g v → v ∈ st.order) →
      ((∀ v, v ∈ st2.visited → v ∉ inStack1 → reachesOutput g v → v ∈ st2.order) ∧
       (r = true → r2 = true) ∧
       (∀ b ∈ bs, ∀ out ∈ (g.blocks.getD b defaultBlock).outputs,
         reachesOutput g out → r2 = true)) := by
  intro bs
  induction bs with
  | nil =>
    intro inStack1 st r st2 r2 _ h hpre
    simp only [searchBlocks] at h
    cases h
    exact ⟨hpre, fun hr => hr, fun b hb => absurd hb (List.not_mem_nil b)⟩
  | cons b bs ih =>
    intro inStack1 st r st2 r2 hN h hpre
    simp only [searchBlocks] at h
    cases hres : searchOuts rec (g.blocks.getD b defaultBlock).outputs inStack1 st r with
    | error e => rw [hres] at h; cases h
    | ok p =>
      obtain ⟨stm, rm⟩ := p
      rw [hres] at h
      obtain ⟨hP1, hrm1, houts1⟩ := searchOuts_comp hrecN hrecC _ inStack1 st r stm rm
        (hN b (List.mem_cons_self _ _)) hres hpre
      obtain ⟨hP2, hrm2, houts2⟩ := ih inStack1 stm rm st2 r2
        (fun a ha => hN a (List.mem_cons_of_mem _ ha)) h hP1
      refine ⟨hP2, fun hr => hrm2 (hrm1 hr), ?_⟩
      intro a ha out hout hro
      rcases List.mem_cons.mp ha with rfl | ha
      · exact hrm2 (houts1 out hout hro)
      · exact houts2 a ha out hout hro

theorem compSpec_all {g : GraphE} (hw : WFGraph g) :
    ∀ fuel, CompSpec g (searchNetwork g fuel) := by
  intro fuel
  induction fuel with
  | zero =>
    intro node inStack st st2 _ _ h
    simp only [searchNetwork] at h
    cases h
  | succ fuel ih =>
    intro node inStack st st2 hlt hnv h hpre
    simp only [searchNetwork] at h
    have hN : ∀ b ∈ outHypermodels g node,
        ∀ o ∈ (g.blocks.getD b defaultBlock).outputs, o < g.numNodes := by
      intro b hb o ho
      rw [mem_outHypermodels] at hb
      exact hw.2.1 _ (getD_mem_of_lt hb.1) _ ho
    cases hres : searchBlocks g (searchNetwork g fuel) (outHypermodels g node)
        (node :: inStack) ⟨insertVisited node st.visited, st.order⟩
        (decide (node ∈ g.outputs)) with
    | error e => rw [hres] at h; cases h
    | ok p =>
      obtain ⟨stm, reached⟩ := p
      rw [hres] at h
      injection h with h
      subst h
      have hv1 : insertVisited node st.visited = node :: st.visited := if_neg hnv
      have hpre2 : ∀ v, v ∈ (⟨insertVisited node st.visited, st.order⟩ : SState).visited →
          v ∉ node :: inStack → reachesOutput g v → v ∈ st.order := by
        intro v hv2 hnstk hro
        have : v ∈ node :: st.visited := hv1 ▸ hv2
        rcases List.mem_cons.mp this with rfl | hv3
        · exact absurd (List.mem_cons_self _ _) hnstk
        · exact hpre v hv3 hnstk hro
      obtain ⟨hP, hrm, houts⟩ := searchBlocks_comp (netSpec_all hw fuel) ih _ _ _ _
        stm reached hN hres hpre2
      intro v hv2 hnstk hro
      have hford : stm.order ⊆ (if reached = true then addNode node stm.order
          else stm.order) := by
        intro x hx
        by_cases hr : reached = true
        · rw [if_pos hr]
          exact mem_addNode.mpr (Or.inr hx)
        · rw [if_neg hr]
          exact hx
      by_cases hvn : v = node
      · subst hvn
        obtain ⟨o, ho, hro2⟩ := hro
        have hreached : reached = true := by
          rcases Relation.ReflTransGen.cases_head hro2 with rfl | ⟨w, hw, hwr⟩
          · exact hrm (by simp [ho])
          · obtain ⟨b, hb, hwout⟩ := hw
            exact houts b hb w hwout ⟨o, ho, hwr⟩
        show v ∈ (if reached = true then addNode v stm.order else stm.order)
        rw [if_pos hreached]
        exact mem_addNode.mpr (Or.inl rfl)
      · have : v ∈ stm.order :=
          hP v hv2 (fun hc => (List.mem_cons.mp hc).elim hvn hnstk) hro
        exact hford this

theorem searchAll_mono {g : GraphE} (hw : WFGraph g) :
    ∀ (roots order order2 : List Nat),
      (∀ i ∈ roots, i < g.numNodes) →
      searchAll g roots order = .ok order2 →
      ∀ x ∈ order, x ∈ order2 := by
  intro roots
  induction roots with
  | nil =>
    intro order order2 _ h x hx
    simp only [searchAll] at h
    cases h
    exact hx
  | cons rt rs ih =>
    intro order order2 hN h x hx
    simp only [searchAll] at h
    cases hres : searchNetwork g (searchFuel g) rt [] ⟨[], order⟩ with
    | error e => rw [hres] at h; cases h
    | ok st =>
      rw [hres] at h
      have hseg := netSpec_all hw (searchFuel g) rt [] ⟨[], order⟩ st
        (hN rt (List.mem_cons_self _ _)) (by simp) hres
      obtain ⟨L, dO, _, _, _, _, _, hord, _, _, _, _⟩ := hseg
      refine ih st.order order2 (fun j hj => hN j (List.mem_cons_of_mem _ hj)) h x ?_
      rw [show st.order = order ++ dO from hord]
      exact List.mem_append.mpr (Or.inl hx)

theorem searchAll_complete {g : GraphE} (hw : WFGraph g) :
    ∀ (roots order order2 : List Nat),
      (∀ i ∈ roots, i < g.numNodes) →
      searchAll g roots order = .ok order2 →
      ∀ i ∈ roots, ∀ v, reaches g i v → reachesOutput g v → v ∈ order2 := by
  intro roots
  induction roots with
  | nil =>
    intro order order2 _ _ i hi
    cases hi
  | cons rt rs ih =>
    intro order order2 hN h i hi v hrv hov
    simp only [searchAll] at h
    cases hres : searchNetwork g (searchFuel g) rt [] ⟨[], order⟩ with
    | error e => rw [hres] at h; cases h
    | ok st =>
      rw [hres] at h
      rcases List.mem_cons.mp hi with rfl | hi
      · have hseg := netSpec_all hw (searchFuel g) i [] ⟨[], order⟩ st
          (hN i (List.mem_cons_self _ _)) (by simp) hres
        obtain ⟨L, dO, hiff, _, _, _, _, _, _, hfs, _, hneed⟩ := hseg
        have hbase : ∀ x, ¬ (x ∈ (⟨[], order⟩ : SState).visited ∧ x ∉ [i]) := by
          rintro x ⟨hx, _⟩
          cases hx
        have hclosedL : ∀ x, x ∈ L → ∀ y, hasEdge g x y → y ∈ L := by
          intro x hx y hy
          rcases finseq_closure hfs x hx y hy with hb | hm
          · exact absurd hb (hbase y)
          · exact hm
        have hvL : v ∈ L :=
          mem_of_reaches_closedP hclosedL (hneed i (List.mem_cons_self _ _)) hrv
        have hvvis : v ∈ st.visited := (hiff v).mpr (Or.inl hvL)
        have hvord : v ∈ st.order :=
          compSpec_all hw (searchFuel g) i [] ⟨[], order⟩ st
            (hN i (List.mem_cons_self _ _)) (by simp) hres
            (by rintro x hx; cases hx) v hvvis (by simp) hov
        exact searchAll_mono hw rs st.order order2
          (fun j hj => hN j (List.mem_cons_of_mem _ hj)) h v hvord
      · exact ih st.order order2 (fun j hj => hN j (List.mem_cons_of_mem _ hj)) h
          i hi v hrv hov

theorem processBlocks_mono {g : GraphE} :
    ∀ (bs : List Nat) (st st2 : BState),
      processBlocks g bs st = .ok st2 →
      (∀ x ∈ st.order, x ∈ st2.order) ∧ (∀ b ∈ st.hms, b ∈ st2.hms) ∧
      (∀ x ∈ st.queue, x ∈ st2.queue) ∧ (∀ x ∈ st.visitedB, x ∈ st2.visitedB) := by
  intro bs
  induction bs with
  | nil =>
    intro st st2 h
    simp only [processBlocks] at h
    cases h
    exact ⟨fun x hx => hx, fun b hb => hb, fun x hx => hx, fun x hx => hx⟩
  | cons b bs ih =>
    intro st st2 h
    simp only [processBlocks] at h
    by_cases hany : ((g.blocks.getD b defaultBlock).outputs.any
        (fun o => decide (o ∈ st.order))) = true
    · rw [if_pos hany] at h
      cases hres : addHypermodel g b st with
      | error e => rw [hres] at h; cases h
      | ok stm =>
        rw [hres] at h
        obtain ⟨hq, hv, hord, hhms, _⟩ := addHypermodel_inversion hres
        obtain ⟨m1, m2, m3, m4⟩ := ih _ st2 h
        refine ⟨?_, ?_, ?_, ?_⟩
        · intro x hx
          refine m1 x ?_
          rw [enqueueOuts_order, hord]
          exact mem_foldl_addNode.mpr (Or.inl hx)
        · intro a ha
          refine m2 a ?_
          rw [enqueueOuts_hms, hhms]
          by_cases hmem : b ∈ st.hms
          · rw [if_pos hmem]; exact ha
          · rw [if_neg hmem]
            exact List.mem_append.mpr (Or.inl ha)
        · intro x hx
          exact m3 x (enqueueOuts_queue_sub (hq ▸ hx))
        · intro x hx
          exact m4 x (enqueueOuts_visited_sub (hv ▸ hx))
    · rw [if_neg hany] at h
      exact ih st st2 h

theorem processBlocks_newvisited {g : GraphE} :
    ∀ (bs : List Nat) (st st2 : BState),
      processBlocks g bs st = .ok st2 →
      ∀ x ∈ st2.visitedB, x ∈ st.visitedB ∨ x ∈ st2.queue := by
  intro bs
  induction bs with
  | nil =>
    intro st st2 h x hx
    simp only [processBlocks] at h
    cases h
    exact Or.inl hx
  | cons b bs ih =>
    intro st st2 h x hx
    simp only [processBlocks] at h
    by_cases hany : ((g.blocks.getD b defaultBlock).outputs.any
        (fun o => decide (o ∈ st.order))) = true
    · rw [if_pos hany] at h
      cases hres : addHypermodel g b st with
      | error e => rw [hres] at h; cases h
      | ok stm =>
        rw [hres] at h
        obtain ⟨hq, hv, _, _, _⟩ := addHypermodel_inversion hres
        rcases ih _ st2 h x hx with hx2 | hx2
        · rcases enqueueOuts_newvisited hx2 with hx3 | hx3
          · exact Or.inl (hv ▸ hx3)
          · exact Or.inr ((processBlocks_mono bs _ st2 h).2.2.1 x hx3)
        · exact Or.inr hx2
    · rw [if_neg hany] at h
      exact ih st st2 h x hx

theorem processBlocks_DP {g : GraphE} {disc : List Nat} :
    ∀ (bs : List Nat) (st st2 : BState),
      processBlocks g bs st = .ok st2 →
      (∀ x ∈ disc, x ∈ st.order) →
      ∀ b ∈ bs, (∃ out ∈ (g.blocks.getD b defaultBlock).outputs, out ∈ disc) →
        b ∈ st2.hms := by
  intro bs
  induction bs with
  | nil =>
    intro st st2 _ _ b hb
    cases hb
  | cons b2 bs ih =>
    intro st st2 h hdisc b hb hout
    simp only [processBlocks] at h
    rcases List.mem_cons.mp hb with rfl | hb
    · obtain ⟨out, hout1, hout2⟩ := hout
      have hany : ((g.blocks.getD b defaultBlock).outputs.any
          (fun o => decide (o ∈ st.order))) = true := by
        rw [List.any_eq_true]
        exact ⟨out, hout1, by simp [hdisc out hout2]⟩
      rw [if_pos hany] at h
      cases hres : addHypermodel g b st with
      | error e => rw [hres] at h; cases h
      | ok stm =>
        rw [hres] at h
        obtain ⟨_, _, _, hhms, _⟩ := addHypermodel_inversion hres
        have hbm : b ∈ (enqueueOuts (g.blocks.getD b defaultBlock).outputs stm).hms := by
          rw [enqueueOuts_hms, hhms]
          by_cases hmem : b ∈ st.hms
          · rw [if_pos hmem]; exact hmem
          · rw [if_neg hmem]
            exact List.mem_append.mpr (Or.inr (List.mem_singleton_self _))
        exact (processBlocks_mono bs _ st2 h).2.1 b hbm
    · by_cases hany : ((g.blocks.getD b2 defaultBlock).outputs.any
          (fun o => decide (o ∈ st.order))) = true
      · rw [if_pos hany] at h
        cases hres : addHypermodel g b2 st with
        | error e => rw [hres] at h; cases h
        | ok stm =>
          rw [hres] at h
          obtain ⟨_, _, hord, _, _⟩ := addHypermodel_inversion hres
          refine ih _ st2 h ?_ b hb hout
          intro x hx
          rw [enqueueOuts_order, hord]
          exact mem_foldl_addNode.mpr (Or.inl (hdisc x hx))
      · rw [if_neg hany] at h
        exact ih st st2 h hdisc b hb hout

theorem mem_foldl_insertVisited {l : List Nat} :
    ∀ {v : List Nat} {x : Nat},
      x ∈ l.foldl (fun v n => insertVisited n v) v ↔ x ∈ l ∨ x ∈ v := by
  induction l with
  | nil => simp
  | cons n l ih =>
    intro v x
    simp only [List.foldl_cons]
    rw [ih]
    unfold insertVisited
    by_cases h : n ∈ v
    · rw [if_pos h]
      constructor
      · rintro (hx | hx)
        · exact Or.inl (List.mem_cons_of_mem _ hx)
        · exact Or.inr hx
      · rintro (hx | hx)
        · rcases List.mem_cons.mp hx with rfl | hx
          · exact Or.inr h
          · exact Or.inl hx
        · exact Or.inr hx
    · rw [if_neg h]
      simp [List.mem_cons]
      tauto

theorem bfsLoop_complete {g : GraphE} {disc : List Nat} (hw : WFGraph g) :
    ∀ (fuel : Nat) (st : BState) (orderF hmsF : List Nat),
      bfsLoop g fuel st = .ok (orderF, hmsF) →
      BfsInv g disc st →
      (∀ n ∈ st.visitedB, n ∈ st.queue ∨
        (∀ b ∈ outHypermodels g n,
          (∃ out ∈ (g.blocks.getD b defaultBlock).outputs, out ∈ orderF) →
            b ∈ hmsF)) →
      ∃ vfin : List Nat,
        (∀ n ∈ st.visitedB, n ∈ vfin) ∧
        (∀ b ∈ hmsF, ∀ out ∈ (g.blocks.getD b defaultBlock).outputs, out ∈ vfin) ∧
        (∀ n ∈ vfin, ∀ b ∈ outHypermodels g n,
          (∃ out ∈ (g.blocks.getD b defaultBlock).outputs, out ∈ orderF) →
            b ∈ hmsF) := by
  intro fuel
  induction fuel with
  | zero =>
    intro st orderF hmsF h
    simp only [bfsLoop] at h
    cases h
  | succ fuel ih =>
    intro st orderF hmsF h hinv hj
    obtain ⟨q, vB, ord, hms⟩ := st
    cases q with
    | nil =>
      simp only [bfsLoop] at h
      injection h with h
      injection h with h1 h2
      subst h1
      subst h2
      refine ⟨vB, fun n hn => hn, ?_, ?_⟩
      · exact hinv.2.2.2.2.1
      · intro n hn
        rcases hj n hn with hq | hdp
        · cases hq
        · exact hdp
    | cons n rest =>
      simp only [bfsLoop] at h
      cases hres : processBlocks g (outHypermodels g n) ⟨rest, vB, ord, hms⟩ with
      | error e => rw [hres] at h; cases h
      | ok stm =>
        rw [hres] at h
        have hinv0 : BfsInv g disc ⟨rest, vB, ord, hms⟩ := hinv
        obtain ⟨hinv2, _, _, _, _⟩ := processBlocks_inv hw
          (outHypermodels g n) _ stm
          (fun b hb => (mem_outHypermodels.mp hb).1) hres hinv0
        obtain ⟨m1, m2, m3, m4⟩ := processBlocks_mono (outHypermodels g n) _ stm hres
        obtain ⟨⟨f1, f2, f3, f4, f5, f6⟩, fords, fhms⟩ :=
          bfsLoop_inv hw fuel stm orderF hmsF h hinv2
        have hdpn : ∀ b ∈ outHypermodels g n,
            (∃ out ∈ (g.blocks.getD b defaultBlock).outputs, out ∈ orderF) →
              b ∈ hmsF := by
          intro b hb ⟨out, hout, houtF⟩
          have hblen : b < g.blocks.length := (mem_outHypermodels.mp hb).1
          rcases f4 out houtF with hdisc2 | ⟨b2, hb2, hout2⟩
          · refine fhms b ?_
            exact processBlocks_DP (outHypermodels g n) _ stm hres
              (fun x hx => hinv0.2.2.2.2.2.2 x hx) b hb ⟨out, hout, hdisc2⟩
          · by_cases heq : b = b2
            · exact heq ▸ hb2
            · exact absurd hout2 (hw.2.2.2.2.2.1 b (List.mem_range.mpr hblen)
                b2 (List.mem_range.mpr (f2 b2 hb2)) heq out hout)
        have hj2 : ∀ m ∈ stm.visitedB, m ∈ stm.queue ∨
            (∀ b ∈ outHypermodels g m,
              (∃ out ∈ (g.blocks.getD b defaultBlock).outputs, out ∈ orderF) →
                b ∈ hmsF) := by
          intro m hm
          rcases processBlocks_newvisited (outHypermodels g n) _ stm hres m hm with
            hm2 | hm2
          · rcases hj m hm2 with hq | hdp
            · rcases List.mem_cons.mp hq with rfl | hq
              · exact Or.inr hdpn
              · exact Or.inl (m3 m hq)
            · exact Or.inr hdp
          · exact Or.inl hm2
        obtain ⟨vfin, s1, s2, s3⟩ := ih stm orderF hmsF h hinv2 hj2
        exact ⟨vfin, fun x hx => s1 x (m4 x hx), s2, s3⟩

/-! ## C6: each contributing block is scheduled exactly once -/

/-- C6: for every well-formed graph on which construction succeeds, every
Block that contributes at least one output Node to the induced node set (the
discovery snapshot `self._nodes`) appears in the produced block order
exactly once, even when it is reachable from multiple designated inputs or
via multiple paths: `_add_hypermodel` registers a block only when absent
(exactly-once), and the BFS frontier reaches some input of every such block
(existence). -/
theorem c6_theorem {g : GraphE} {r : BuildOut} (hw : WFGraph g)
    (h : buildNetwork g = .ok r) :
    ∀ b : Nat,
      (∃ m ∈ (g.blocks.getD b defaultBlock).outputs, m ∈ r.nodes) →
      r.hms.count b = 1 := by
  obtain ⟨h1, h2, h3, h4⟩ := buildNetwork_inversion h
  have hinv0 : BfsInv g r.nodes
      ⟨g.inputs, g.inputs.foldl (fun v n => insertVisited n v) [], r.nodes, []⟩ := by
    refine ⟨List.nodup_nil, ?_, ?_, ?_, ?_, ?_, ?_⟩ <;> simp
  obtain ⟨⟨f1, f2, f3, f4, f5, f6⟩, fords, fhms⟩ :=
    bfsLoop_inv hw (bfsFuel g) _ _ _ h3 hinv0
  obtain ⟨vfin, s1, s2, s3⟩ := bfsLoop_complete hw (bfsFuel g) _ _ _ h3 hinv0 (by
    intro n hn
    left
    show n ∈ g.inputs
    rcases mem_foldl_insertVisited.mp hn with hn2 | hn2
    · exact hn2
    · cases hn2)
  rintro b ⟨m, hm, hmd⟩
  have hblen : b < g.blocks.length := by
    by_contra hc
    have hdef : g.blocks.getD b defaultBlock = defaultBlock := by
      rw [List.getD_eq_getElem?_getD, List.getElem?_eq_none (by omega)]
      rfl
    rw [hdef] at hm
    cases hm
  rcases searchAll_reach hw g.inputs [] r.nodes (fun i hi => hw.2.2.1 i hi) h1 m hmd
    with hx | ⟨⟨i, hi, him⟩, hmN⟩
  · cases hx
  have hmout : reachesOutput g m := searchAll_ord g.inputs [] r.nodes h1 (by simp) m hmd
  have hivfin : i ∈ vfin := s1 i (mem_foldl_insertVisited.mpr (Or.inl hi))
  cases him with
  | refl =>
    exact absurd hm (hw.2.2.2.2.2.2 m hi _ (getD_mem_of_lt hblen))
  | tail hiu hum =>
    rename_i u
    obtain ⟨b3, hb3, hm3⟩ := hum
    have hb3len : b3 < g.blocks.length := (mem_outHypermodels.mp hb3).1
    have hbeq : b3 = b := by
      by_contra hne
      exact hw.2.2.2.2.2.1 b3 (List.mem_range.mpr hb3len) b (List.mem_range.mpr hblen)
        hne m hm3 hm
    subst hbeq
    obtain ⟨o, ho, hmo⟩ := hmout
    have huout : reachesOutput g u := ⟨o, ho, Relation.ReflTransGen.head ⟨b3, hb3, hm3⟩ hmo⟩
    have huvfin : u ∈ vfin := by
      have hmotive : ∀ a, reaches g a u → reaches g i a → a ∈ vfin → u ∈ vfin := by
        intro a hau
        unfold reaches at hau
        induction hau using Relation.ReflTransGen.head_induction_on with
        | refl => exact fun _ hv => hv
        | head hac hcu ihc =>
          rename_i a2 c
          intro hia hav
          have hic : reaches g i c := Relation.ReflTransGen.tail hia hac
          have hcout : reachesOutput g c := by
            obtain ⟨o2, ho2, huo2⟩ := huout
            exact ⟨o2, ho2, Relation.ReflTransGen.trans hcu huo2⟩
          have hcd : c ∈ r.nodes :=
            searchAll_complete hw g.inputs [] r.nodes (fun j hj => hw.2.2.1 j hj)
              h1 i hi c hic hcout
          obtain ⟨blk, hblk, hcout2⟩ := hac
          have hblkhms : blk ∈ r.hms := s3 a2 hav blk hblk ⟨c, hcout2, f6 c hcd⟩
          have hcvfin : c ∈ vfin := s2 blk hblkhms c hcout2
          exact ihc hic hcvfin
      exact hmotive i hiu Relation.ReflTransGen.refl hivfin
    have hbhms : b3 ∈ r.hms := s3 u huvfin b3 hb3 ⟨m, hm3, f6 m hmd⟩
    exact List.count_eq_one_of_mem f1 hbhms

/-- Witness for C6 at `gShared`: the merge block (index 0) is reachable from
both designated inputs and appears exactly once, as does the head block. -/
theorem c6_witness :
    WFGraph gShared ∧
    gSharedRes.hms.count 0 = 1 ∧ gSharedRes.hms.count 1 = 1 ∧
    (2 : Nat) ∈ (gShared.blocks.getD 0 defaultBlock).outputs ∧
    (2 : Nat) ∈ gSharedRes.nodes := by
  refine ⟨by decide, ?_, by decide, by decide, by decide⟩
  exact c6_theorem (g := gShared) (r := gSharedRes) (by decide) rfl 0
    ⟨2, by decide, by decide⟩
